import Mathlib

/-! Gate-level logic simulator (`AnalysisEDA::run`).

A shallow embedding of `src/implementation/Analysis-EDA/AnalysisEDA.cpp`.

The single method `AnalysisEDA::run` is split along its own comments into the
stages it executes for every input vector:

* `latchRegisters`        (lines 25-33)
* `assignPrimaryInputs`   (lines 36-41)
* `converge`              (lines 44-107), built from `evaluateGate` (lines 65-96),
  `updateOutputs` (lines 99-104), `combinationalPass` (lines 48-105)
* `captureRegisters`      (lines 110-118)
* `primaryOutputs`        (lines 121-126)

`processVector` chains the stages for one vector and `run` iterates it over
`inputData`, starting from the all-`X` state of lines 19-21. They guard the
read of line 39; `processVectorUnchecked` and `runUnchecked` leave it
unchecked, as the code does, and agree with them on every run without error.
-/

namespace AnalysisEDA

/-! ## Data model -/

/-- The three logic values `Logic::logic0`, `Logic::logic1`, `Logic::logicX`. -/
inductive Logic where
  | logic0
  | logic1
  | logicX
  deriving DecidableEq, Repr

/-- Modelled from the spec: the enumeration `ElementType` is declared in the
circuit library, which is not among the sources. `run` names the enumerators
`Not`, `And`, `Or` and `Dff` and sends every other kind to the `default:`
branch; `Other tag` stands for any such further enumerator. -/
inductive ElementType where
  | Not
  | And
  | Or
  | Dff
  | Other (tag : Nat)
  deriving DecidableEq, Repr

/-- Modelled from the spec: class `Net` is declared in the circuit library,
which is not among the sources. A net is identified by a dense integer id that
indexes the state arrays, so the net `nets[i]` of `getAllNets()` has
`getId() = i` and carries no separate id field here. `inElement` is
`getInElement()` (`none` for `nullptr`), `outElements` is `getOutElements()`
(entries may be `nullptr`); elements are referred to by a bare handle. -/
structure Net where
  inElement : Option Nat
  outElements : List (Option Nat)
  deriving DecidableEq, Repr

/-- Modelled from the spec: class `Element` is declared in the circuit library,
which is not among the sources. `type` is `getElementInfo()->getType()`,
`inNets` and `outNets` are `getInNets()` and `getOutNets()`, each net given by
its id (the only thing `run` asks of these nets). -/
structure Element where
  type : ElementType
  inNets : List Nat
  outNets : List Nat
  deriving DecidableEq, Repr

/-- Modelled from the spec: class `Circuit` is declared in the circuit library,
which is not among the sources. `nets` is `getAllNets()`, `elements` is
`getAllElements()`. -/
structure Circuit where
  nets : List Net
  elements : List Element
  deriving DecidableEq, Repr

/-- A state array `std::vector<Logic>` indexed by net id (`currentState`,
`nextState`). Net ids are dense indices below the net count, so the bound of
the array is not modelled: the array is a total map from ids to values. -/
abbrev NetState := Nat → Logic

/-- The assignment `state[id] = v`. -/
def NetState.set (state : NetState) (id : Nat) (v : Logic) : NetState :=
  fun j => if j = id then v else state j

/-- The outcomes other than a result: the exception thrown at line 95, and an
`operator[]` applied past the end of a `std::vector` (`inputVector` at
line 39, `inputs` at line 67). The latter is no exit of the code: C++ leaves
the read undefined, and `readPastEnd` marks that a definition guarded the read
and refused to say what follows. For the read of line 39 what follows is given
by `assignLoopUnchecked` and `runUnchecked`. -/
inductive SimError where
  | unsupportedGate
  | readPastEnd
  deriving DecidableEq, Repr

deriving instance DecidableEq for Except

/-- The pair of state arrays carried from one input vector to the next. -/
structure SimState where
  currentState : NetState
  nextState : NetState

/-- Lines 20-21: both arrays start as `X` everywhere. -/
def initialState : SimState :=
  { currentState := fun _ => Logic.logicX
    nextState := fun _ => Logic.logicX }

/-! ## Gate evaluation (lines 65-96) -/

/-- The `switch (type)` of lines 65-96 applied to the collected `inputs`. -/
def evaluateGate (type : ElementType) (inputs : List Logic) : Except SimError Logic :=
  match type with
  | ElementType.Not =>
    match inputs with
    | [] => Except.error SimError.readPastEnd
    | v :: _ =>
      if v = Logic.logicX then Except.ok Logic.logicX
      else Except.ok (if v = Logic.logic0 then Logic.logic1 else Logic.logic0)
  | ElementType.And =>
    if Logic.logic0 ∈ inputs then Except.ok Logic.logic0
    else if Logic.logicX ∈ inputs then Except.ok Logic.logicX
    else Except.ok Logic.logic1
  | ElementType.Or =>
    if Logic.logic1 ∈ inputs then Except.ok Logic.logic1
    else if Logic.logicX ∈ inputs then Except.ok Logic.logicX
    else Except.ok Logic.logic0
  | _ => Except.error SimError.unsupportedGate

/-! ## Register latch (lines 25-33) -/

/-- The guard `!outNets.empty() && inNets.size() >= 2` of lines 29 and 114,
returning the pair `(outNets[0], inNets[1])` when it holds. -/
def registerPins (e : Element) : Option (Nat × Nat) :=
  match e.outNets, e.inNets with
  | q :: _, _ :: d :: _ => some (q, d)
  | _, _ => none

/-- Lines 25-33: `currentState[Q] = nextState[Q]` for every register. -/
def latchRegisters (nextState : NetState) : List Element → NetState → NetState
  | [], cur => cur
  | e :: rest, cur =>
    if e.type = ElementType.Dff then
      match registerPins e with
      | some (q, _) => latchRegisters nextState rest (cur.set q (nextState q))
      | none => latchRegisters nextState rest cur
    else latchRegisters nextState rest cur

/-! ## Primary-input assignment (lines 36-41) -/

/-- The loop of lines 37-41 from net index `i` on, `inputIndex` values of the
vector having been consumed, with a guard on the read of line 39: as long as
the vector holds the value asked for, this is the loop of the code; at a read
past the end of the vector it answers `readPastEnd` instead of going on as the
code does (see `assignLoopUnchecked`). -/
def assignLoop (inputVector : List Logic) :
    List Net → Nat → Nat → NetState → Except SimError NetState
  | [], _, _, cur => Except.ok cur
  | n :: rest, i, inputIndex, cur =>
    if n.inElement = none then
      match inputVector[inputIndex]? with
      | some v => assignLoop inputVector rest (i + 1) (inputIndex + 1) (cur.set i v)
      | none => Except.error SimError.readPastEnd
    else assignLoop inputVector rest (i + 1) inputIndex cur

/-- Lines 36-41. -/
def assignPrimaryInputs (nets : List Net) (inputVector : List Logic) (cur : NetState) :
    Except SimError NetState :=
  assignLoop inputVector nets 0 0 cur

/-! ## Combinational convergence (lines 44-107) -/

/-- Lines 99-104: write `output` to every output net that differs from it,
raising `changed` at each write. -/
def updateOutputs (output : Logic) : List Nat → NetState → Bool → NetState × Bool
  | [], cur, changed => (cur, changed)
  | o :: rest, cur, changed =>
    if cur o ≠ output then updateOutputs output rest (cur.set o output) true
    else updateOutputs output rest cur changed

/-- The `for` loop of lines 48-105 over the remaining elements. -/
def passLoop : List Element → NetState → Bool → Except SimError (NetState × Bool)
  | [], cur, changed => Except.ok (cur, changed)
  | e :: rest, cur, changed =>
    if e.type = ElementType.Dff then passLoop rest cur changed
    else
      match evaluateGate e.type (e.inNets.map cur) with
      | Except.error err => Except.error err
      | Except.ok output =>
        passLoop rest (updateOutputs output e.outNets cur changed).1
          (updateOutputs output e.outNets cur changed).2

/-- One pass of the `do` body: `changed = false` (line 47), then lines 48-105. -/
def combinationalPass (elements : List Element) (cur : NetState) :
    Except SimError (NetState × Bool) :=
  passLoop elements cur false

/-- What the `do ... while` loop leaves behind: the array, the flag `changed`
of the last pass and the final value of the counter `maxIterations`. -/
structure Converged where
  currentState : NetState
  changed : Bool
  maxIterations : Nat

/-- The `do ... while (changed && maxIterations > 0)` loop of lines 46-107.
The numeric argument is the value of `maxIterations` after the decrement of
line 106 in the iteration being executed. -/
def doWhile (elements : List Element) : Nat → NetState → Except SimError Converged
  | 0, cur =>
    match combinationalPass elements cur with
    | Except.error err => Except.error err
    | Except.ok r => Except.ok { currentState := r.1, changed := r.2, maxIterations := 0 }
  | k + 1, cur =>
    match combinationalPass elements cur with
    | Except.error err => Except.error err
    | Except.ok r =>
      if r.2 then doWhile elements k r.1
      else Except.ok { currentState := r.1, changed := r.2, maxIterations := k + 1 }

/-- Line 45: `int maxIterations = 100`. -/
def maxIterations : Nat := 100

/-- Lines 44-107. -/
def converge (elements : List Element) (cur : NetState) : Except SimError Converged :=
  doWhile elements (maxIterations - 1) cur

/-! ## Register capture (lines 110-118) -/

/-- Lines 110-118: `nextState[Q] = currentState[D]` for every register. -/
def captureRegisters (cur : NetState) : List Element → NetState → NetState
  | [], next => next
  | e :: rest, next =>
    if e.type = ElementType.Dff then
      match registerPins e with
      | some (q, d) => captureRegisters cur rest (next.set q (cur d))
      | none => captureRegisters cur rest next
    else captureRegisters cur rest next

/-! ## Primary-output extraction (lines 121-126) -/

/-- The test of line 123:
`net->getOutElements().empty() || net->getOutElements()[0] == nullptr`. -/
def isPrimaryOutput (n : Net) : Bool :=
  match n.outElements with
  | [] => true
  | first :: _ => first.isNone

/-- The loop of lines 122-126 from the net with id `i` on. -/
def outputsLoop (cur : NetState) : List Net → Nat → List Logic
  | [], _ => []
  | n :: rest, i =>
    if isPrimaryOutput n then cur i :: outputsLoop cur rest (i + 1)
    else outputsLoop cur rest (i + 1)

/-- Lines 121-126. -/
def primaryOutputs (nets : List Net) (cur : NetState) : List Logic :=
  outputsLoop cur nets 0

/-! ## The per-vector body and the run (lines 24-136) -/

/-- The body of the loop over `inputData` (lines 25-126): the output sequence
of the vector and the state handed to the next vector. -/
def processVector (c : Circuit) (inputVector : List Logic) (s : SimState) :
    Except SimError (List Logic × SimState) :=
  match assignPrimaryInputs c.nets inputVector
      (latchRegisters s.nextState c.elements s.currentState) with
  | Except.error err => Except.error err
  | Except.ok assigned =>
    match converge c.elements assigned with
    | Except.error err => Except.error err
    | Except.ok r =>
      Except.ok (primaryOutputs c.nets r.currentState,
        { currentState := r.currentState
          nextState := captureRegisters r.currentState c.elements s.nextState })

/-- The observable result of a run: the output sequences emitted so far, in
order, the error that stopped the run (if any) and the state arrays at the
end. -/
structure RunResult where
  outputs : List (List Logic)
  error : Option SimError
  final : SimState

/-- The loop of line 24 over the remaining vectors of `inputData`. -/
def runLoop (c : Circuit) : List (List Logic) → SimState → RunResult
  | [], s => { outputs := [], error := none, final := s }
  | v :: rest, s =>
    match processVector c v s with
    | Except.error err => { outputs := [], error := some err, final := s }
    | Except.ok r =>
      { outputs := r.1 :: (runLoop c rest r.2).outputs
        error := (runLoop c rest r.2).error
        final := (runLoop c rest r.2).final }

/-- The method `AnalysisEDA::run` on circuit `c` and `inputData`. -/
def run (c : Circuit) (inputData : List (List Logic)) : RunResult :=
  runLoop c inputData initialState

/-! ## The run with the read of line 39 left unchecked -/

/-- The read `inputVector[inputIndex]` of line 39 as the code performs it,
through an unchecked `operator[]`: inside the vector it yields the stored
value; past its end nothing is raised and the read yields a value that C++
leaves undefined, given here by `pastEnd` at that index (and taken to be a
logic value). -/
def readInput (pastEnd : Nat → Logic) (inputVector : List Logic) (inputIndex : Nat) : Logic :=
  match inputVector[inputIndex]? with
  | some v => v
  | none => pastEnd inputIndex

/-- The loop of lines 37-41 as the code runs it, from net index `i` on: no
length is compared, every net without driving element consumes one read. -/
def assignLoopUnchecked (pastEnd : Nat → Logic) (inputVector : List Logic) :
    List Net → Nat → Nat → NetState → NetState
  | [], _, _, cur => cur
  | n :: rest, i, inputIndex, cur =>
    if n.inElement = none then
      assignLoopUnchecked pastEnd inputVector rest (i + 1) (inputIndex + 1)
        (cur.set i (readInput pastEnd inputVector inputIndex))
    else assignLoopUnchecked pastEnd inputVector rest (i + 1) inputIndex cur

/-- Lines 36-41 as the code runs them. -/
def assignPrimaryInputsUnchecked (pastEnd : Nat → Logic) (nets : List Net)
    (inputVector : List Logic) (cur : NetState) : NetState :=
  assignLoopUnchecked pastEnd inputVector nets 0 0 cur

/-- The body of the loop over `inputData` (lines 25-126) with the assignment
of the code: after the assignment, whatever it read, come convergence, capture
and extraction. -/
def processVectorUnchecked (pastEnd : Nat → Logic) (c : Circuit) (inputVector : List Logic)
    (s : SimState) : Except SimError (List Logic × SimState) :=
  match converge c.elements
      (assignPrimaryInputsUnchecked pastEnd c.nets inputVector
        (latchRegisters s.nextState c.elements s.currentState)) with
  | Except.error err => Except.error err
  | Except.ok r =>
    Except.ok (primaryOutputs c.nets r.currentState,
      { currentState := r.currentState
        nextState := captureRegisters r.currentState c.elements s.nextState })

/-- The loop of line 24 over the remaining vectors, the next one being vector
`t` of `inputData`; `pastEnd t` holds what lies past the end of vector `t`. -/
def runLoopUnchecked (pastEnd : Nat → Nat → Logic) (c : Circuit) :
    List (List Logic) → Nat → SimState → RunResult
  | [], _, s => { outputs := [], error := none, final := s }
  | v :: rest, t, s =>
    match processVectorUnchecked (pastEnd t) c v s with
    | Except.error err => { outputs := [], error := some err, final := s }
    | Except.ok r =>
      { outputs := r.1 :: (runLoopUnchecked pastEnd c rest (t + 1) r.2).outputs
        error := (runLoopUnchecked pastEnd c rest (t + 1) r.2).error
        final := (runLoopUnchecked pastEnd c rest (t + 1) r.2).final }

/-- The loop of lines 129-134 from index `i` on, over the values not yet
printed; `size` is `outputs.size()` and `out` the text written so far.
`symbol` is the text that `operator<<` writes for a logic value; that operator
is declared in the circuit library, which is not among the sources. The
comparison `i < size - 1` is only reached with `size ≥ 1`, where the unsigned
subtraction does not wrap. -/
def printLoop (symbol : Logic → String) (size : Nat) : List Logic → Nat → String → String
  | [], _, out => out
  | v :: rest, i, out =>
    printLoop symbol size rest (i + 1)
      (if i < size - 1 then out ++ symbol v ++ ";" else out ++ symbol v)

/-- Lines 128-135: the text written for one output sequence, `std::endl`
included. -/
def printLine (symbol : Logic → String) (outputs : List Logic) : String :=
  printLoop symbol outputs.length outputs 0 "" ++ "\n"

/-! ## Example circuits -/

/-- One register and nothing else: net 0 is the primary input `in`, net 1 is
the register output `Q` (driven, without consumers). The register samples net 0
on its data pin `input[1]`; its clock pin `input[0]` is the net `clk`, which
the value logic never consults. -/
def registerCircuit (clk : Nat) : Circuit :=
  { nets := [{ inElement := none, outElements := [some 0] },
             { inElement := some 0, outElements := [] }]
    elements := [{ type := ElementType.Dff, inNets := [clk, 0], outNets := [1] }] }

/-- Two registers that both list net 3 as their output: nets 0, 1, 2 are the
primary inputs (clock, first data input, second data input), net 3 is driven
and has no consumer. -/
def sharedOutputCircuit : Circuit :=
  { nets := [{ inElement := none, outElements := [some 0, some 1] },
             { inElement := none, outElements := [some 0] },
             { inElement := none, outElements := [some 1] },
             { inElement := some 0, outElements := [] }]
    elements := [{ type := ElementType.Dff, inNets := [0, 1], outNets := [3] },
                 { type := ElementType.Dff, inNets := [0, 2], outNets := [3] }] }

/-- A single two-input AND gate: nets 0 and 1 are the primary inputs, net 2 is
the gate output (driven, without consumers). -/
def andCircuit : Circuit :=
  { nets := [{ inElement := none, outElements := [some 0] },
             { inElement := none, outElements := [some 0] },
             { inElement := some 0, outElements := [] }]
    elements := [{ type := ElementType.And, inNets := [0, 1], outNets := [2] }] }

/-- A register in front of an element of a kind that `run` does not evaluate:
net 0 is the primary input, net 1 the register output, net 2 the output of the
unsupported element. -/
def unsupportedCircuit : Circuit :=
  { nets := [{ inElement := none, outElements := [some 0] },
             { inElement := some 0, outElements := [some 1] },
             { inElement := some 1, outElements := [] }]
    elements := [{ type := ElementType.Dff, inNets := [0, 0], outNets := [1] },
                 { type := ElementType.Other 0, inNets := [1], outNets := [2] }] }

/-- The number of primary-input nets: the nets for which the test of line 38,
`getInElement() == nullptr`, holds. -/
def primaryInputCount (nets : List Net) : Nat :=
  nets.countP (fun n => decide (n.inElement = none))

/-- A chain of `n` inverters: gate `i` reads net `i` and drives net `i + 1`,
in ascending order. Net 0 is the only net without a driver. -/
def inverterChain (n : Nat) : List Element :=
  (List.range n).map
    (fun i => { type := ElementType.Not, inNets := [i], outNets := [i + 1] })

/-- The value an inverter chain fed with `1` settles to on net `j`. -/
def alternating (j : Nat) : Logic :=
  if j % 2 = 0 then Logic.logic1 else Logic.logic0

/-- The array in which the nets `0 .. p` of an inverter chain fed with `1` hold
their settled values and every other net holds `X`. `chainState 0` is the
all-`X` array after `1` was assigned to net 0. -/
def chainState (p : Nat) : NetState :=
  fun j => if j ≤ p then alternating j else Logic.logicX

/-- Two registers in a row: net 0 is the primary input, net 1 the output of
the first register (which samples net 0), net 2 the output of the second
register (which samples net 1) and the only primary output. Both clock pins
are tied to net 0. The flag chooses which register comes first in the element
list. -/
def pipelineCircuit (secondFirst : Bool) : Circuit :=
  { nets := [{ inElement := none, outElements := [some 0, some 1] },
             { inElement := some 0, outElements := [some 1] },
             { inElement := some 1, outElements := [] }]
    elements :=
      if secondFirst then
        [{ type := ElementType.Dff, inNets := [0, 1], outNets := [2] },
         { type := ElementType.Dff, inNets := [0, 0], outNets := [1] }]
      else
        [{ type := ElementType.Dff, inNets := [0, 0], outNets := [1] },
         { type := ElementType.Dff, inNets := [0, 1], outNets := [2] }] }

/-! ## Notions used to state the properties -/

/-- The array `cur` is a fixed point of the gates: every output net of every
non-register element holds the value its gate yields on the current values of
its input nets. -/
def IsFixedPoint (elements : List Element) (cur : NetState) : Prop :=
  ∀ e ∈ elements, e.type ≠ ElementType.Dff →
    ∃ y, evaluateGate e.type (e.inNets.map cur) = Except.ok y ∧
      ∀ o ∈ e.outNets, cur o = y

/-- No combinational feedback: the nets can be ranked so that every
non-register element drives nets of a higher rank than the nets it reads, which
for a finite netlist says that no cycle runs through non-register elements. -/
def Acyclic (elements : List Element) : Prop :=
  ∃ rank : Nat → Nat, ∀ e ∈ elements, e.type ≠ ElementType.Dff →
    ∀ i ∈ e.inNets, ∀ o ∈ e.outNets, rank i < rank o

/-- The array and the flag `changed` after `n` full passes in a row from `cur`
(`false` when no pass was made). -/
def passesFrom (elements : List Element) : Nat → NetState → Except SimError (NetState × Bool)
  | 0, cur => Except.ok (cur, false)
  | n + 1, cur =>
    match passesFrom elements n cur with
    | Except.error err => Except.error err
    | Except.ok q => combinationalPass elements q.1

/-- A register that the guard of lines 29 and 114 rejects: fewer than two
input nets, or no output net. -/
def isMalformedRegister (e : Element) : Bool :=
  decide (e.type = ElementType.Dff ∧ (e.inNets.length < 2 ∨ e.outNets = []))

/-- The ids of the primary-input nets (the nets without driving element) among
`nets`, in ascending order, the first net of the list having id `i`. -/
def primaryInputIdsFrom : List Net → Nat → List Nat
  | [], _ => []
  | n :: rest, i =>
    if n.inElement = none then i :: primaryInputIdsFrom rest (i + 1)
    else primaryInputIdsFrom rest (i + 1)

/-- The ids of the primary-input nets of a circuit, in ascending order. -/
def primaryInputIds (nets : List Net) : List Nat :=
  primaryInputIdsFrom nets 0

/-- The logic value of a classical truth value. -/
def Logic.ofBool (b : Bool) : Logic :=
  if b then Logic.logic1 else Logic.logic0

/-- The input list `refined` is obtained from `inputs` by replacing some of its
`X` entries by other values and keeping every other entry. -/
def Refines (inputs refined : List Logic) : Prop :=
  List.Forall₂ (fun a b => a = Logic.logicX ∨ a = b) inputs refined

/-! ## Frame lemmas for the stages -/

theorem NetState.set_same (state : NetState) (id : Nat) (v : Logic) :
    (state.set id v) id = v := by
  simp [NetState.set]

theorem NetState.set_other (state : NetState) (id j : Nat) (v : Logic) (h : j ≠ id) :
    (state.set id v) j = state j := by
  simp [NetState.set, h]

/-- Latching keeps a net that already holds its `nextState` value. -/
theorem latchRegisters_keep (next : NetState) (Q : Nat) :
    ∀ (els : List Element) (cur : NetState),
      cur Q = next Q → latchRegisters next els cur Q = next Q := by
  intro els
  induction els with
  | nil => intro cur h; simpa [latchRegisters] using h
  | cons e rest ih =>
    intro cur h
    simp only [latchRegisters]
    split_ifs
    · rcases hp : registerPins e with _ | ⟨q, d⟩
      · exact ih cur h
      · apply ih
        by_cases hq : Q = q
        · subst hq; exact NetState.set_same _ _ _
        · rw [NetState.set_other _ _ _ _ hq]; exact h
    · exact ih cur h

/-- A well-formed register with output `Q` makes the latch load `nextState[Q]`. -/
theorem latchRegisters_of_mem (next : NetState) (Q : Nat) :
    ∀ (els : List Element) (cur : NetState),
      (∃ e ∈ els, e.type = ElementType.Dff ∧ ∃ d, registerPins e = some (Q, d)) →
      latchRegisters next els cur Q = next Q := by
  intro els
  induction els with
  | nil => intro cur h; obtain ⟨e, he, _⟩ := h; cases he
  | cons e rest ih =>
    intro cur h
    obtain ⟨r, hr, hty, d, hp⟩ := h
    rcases List.mem_cons.mp hr with hre | hrr
    · subst hre
      simp only [latchRegisters, hty, if_true, hp]
      exact latchRegisters_keep next Q rest _ (NetState.set_same _ _ _)
    · have hex : ∃ e ∈ rest, e.type = ElementType.Dff ∧ ∃ d, registerPins e = some (Q, d) :=
        ⟨r, hrr, hty, d, hp⟩
      simp only [latchRegisters]
      split_ifs
      · rcases registerPins e with _ | ⟨q, d⟩
        · exact ih _ hex
        · exact ih _ hex
      · exact ih _ hex

/-- Capture keeps `nextState[Q] = currentState[D]` when every well-formed
register writing `Q` samples `D`. -/
theorem captureRegisters_keep (cur : NetState) (Q D : Nat) :
    ∀ (els : List Element) (next : NetState),
      (∀ e ∈ els, e.type = ElementType.Dff → ∀ d, registerPins e = some (Q, d) → d = D) →
      next Q = cur D → captureRegisters cur els next Q = cur D := by
  intro els
  induction els with
  | nil => intro next _ h; simpa [captureRegisters] using h
  | cons e rest ih =>
    intro next hs h
    have hrest : ∀ e ∈ rest, e.type = ElementType.Dff →
        ∀ d, registerPins e = some (Q, d) → d = D :=
      fun x hx => hs x (List.mem_cons_of_mem _ hx)
    simp only [captureRegisters]
    split_ifs with hty
    · rcases hp : registerPins e with _ | ⟨q, d⟩
      · exact ih next hrest h
      · apply ih _ hrest
        by_cases hq : Q = q
        · subst hq
          rw [NetState.set_same, hs e (List.mem_cons_self _ _) hty d hp]
        · rw [NetState.set_other _ _ _ _ hq]; exact h
    · exact ih next hrest h

/-- A well-formed register `Q <- D`, alone in writing `Q`, makes the capture
store `currentState[D]` in `nextState[Q]`. -/
theorem captureRegisters_of_mem (cur : NetState) (Q D : Nat) :
    ∀ (els : List Element) (next : NetState),
      (∀ e ∈ els, e.type = ElementType.Dff → ∀ d, registerPins e = some (Q, d) → d = D) →
      (∃ e ∈ els, e.type = ElementType.Dff ∧ registerPins e = some (Q, D)) →
      captureRegisters cur els next Q = cur D := by
  intro els
  induction els with
  | nil => intro next _ h; obtain ⟨e, he, _⟩ := h; cases he
  | cons e rest ih =>
    intro next hs h
    have hrest : ∀ e ∈ rest, e.type = ElementType.Dff →
        ∀ d, registerPins e = some (Q, d) → d = D :=
      fun x hx => hs x (List.mem_cons_of_mem _ hx)
    obtain ⟨r, hr, hty, hp⟩ := h
    rcases List.mem_cons.mp hr with hre | hrr
    · subst hre
      simp only [captureRegisters, hty, if_true, hp]
      exact captureRegisters_keep cur Q D rest _ hrest (NetState.set_same _ _ _)
    · have hex : ∃ e ∈ rest, e.type = ElementType.Dff ∧ registerPins e = some (Q, D) :=
        ⟨r, hrr, hty, hp⟩
      simp only [captureRegisters]
      split_ifs
      · rcases registerPins e with _ | ⟨q, d⟩
        · exact ih _ hrest hex
        · exact ih _ hrest hex
      · exact ih _ hrest hex

/-- The assignment loop writes only at positions of nets without a driver. -/
theorem assignLoop_frame (vec : List Logic) (j : Nat) :
    ∀ (nets : List Net) (i k : Nat) (cur a : NetState),
      assignLoop vec nets i k cur = Except.ok a →
      (i ≤ j → ∀ n, nets[j - i]? = some n → n.inElement ≠ none) →
      a j = cur j := by
  intro nets
  induction nets with
  | nil =>
    intro i k cur a h _
    simp only [assignLoop, Except.ok.injEq] at h
    rw [h]
  | cons n rest ih =>
    intro i k cur a h hj
    have hrest : i + 1 ≤ j → ∀ m, rest[j - (i + 1)]? = some m → m.inElement ≠ none := by
      intro hle m hm
      apply hj (by omega) m
      have : j - i = (j - (i + 1)) + 1 := by omega
      rw [this, List.getElem?_cons_succ]
      exact hm
    simp only [assignLoop] at h
    split_ifs at h with hn
    · split at h
      · rename_i v _
        rw [ih _ _ _ _ h hrest]
        apply NetState.set_other
        intro hji
        subst hji
        exact hj (le_refl _) n (by simp) hn
      · cases h
    · exact ih _ _ _ _ h hrest

/-- Writing the outputs of a gate leaves every other net alone. -/
theorem updateOutputs_frame (output : Logic) (Q : Nat) :
    ∀ (outs : List Nat) (cur : NetState) (changed : Bool),
      Q ∉ outs → (updateOutputs output outs cur changed).1 Q = cur Q := by
  intro outs
  induction outs with
  | nil => intro cur changed _; rfl
  | cons o rest ih =>
    intro cur changed hQ
    have hne : Q ≠ o := fun h => hQ (h ▸ List.mem_cons_self _ _)
    have hrest : Q ∉ rest := fun h => hQ (List.mem_cons_of_mem _ h)
    simp only [updateOutputs]
    split_ifs
    · rw [ih _ _ hrest, NetState.set_other _ _ _ _ hne]
    · exact ih _ _ hrest

/-- A pass leaves alone every net that no non-register element drives. -/
theorem passLoop_frame (Q : Nat) :
    ∀ (els : List Element) (cur : NetState) (changed : Bool) (r : NetState × Bool),
      passLoop els cur changed = Except.ok r →
      (∀ e ∈ els, e.type ≠ ElementType.Dff → Q ∉ e.outNets) →
      r.1 Q = cur Q := by
  intro els
  induction els with
  | nil =>
    intro cur changed r h _
    simp only [passLoop, Except.ok.injEq] at h
    rw [← h]
  | cons e rest ih =>
    intro cur changed r h hQ
    have hrest : ∀ e ∈ rest, e.type ≠ ElementType.Dff → Q ∉ e.outNets :=
      fun x hx => hQ x (List.mem_cons_of_mem _ hx)
    simp only [passLoop] at h
    split_ifs at h with hty
    · exact ih _ _ _ h hrest
    · split at h
      · cases h
      · rw [ih _ _ _ h hrest]
        exact updateOutputs_frame _ Q _ _ _ (hQ e (List.mem_cons_self _ _) hty)

/-- The convergence loop leaves alone every net that no non-register element
drives. -/
theorem doWhile_frame (els : List Element) (Q : Nat)
    (hQ : ∀ e ∈ els, e.type ≠ ElementType.Dff → Q ∉ e.outNets) :
    ∀ (k : Nat) (cur : NetState) (r : Converged),
      doWhile els k cur = Except.ok r → r.currentState Q = cur Q := by
  intro k
  induction k with
  | zero =>
    intro cur r h
    simp only [doWhile, combinationalPass] at h
    split at h
    · cases h
    · rename_i p hp
      simp only [Except.ok.injEq] at h
      rw [← h]
      exact passLoop_frame Q els cur false p hp hQ
  | succ k ih =>
    intro cur r h
    simp only [doWhile, combinationalPass] at h
    split at h
    · cases h
    · rename_i p hp
      split_ifs at h
      · rw [ih _ _ h]
        exact passLoop_frame Q els cur false p hp hQ
      · simp only [Except.ok.injEq] at h
        rw [← h]
        exact passLoop_frame Q els cur false p hp hQ

/-! ## The run, vector by vector -/

/-- In a run that raises no error, vector `k` is processed from the state left
by the first `k` vectors, leaves the state of the first `k + 1` vectors and
contributes the `k`-th output sequence. -/
theorem runLoop_step (c : Circuit) :
    ∀ (vs : List (List Logic)) (s : SimState) (k : Nat) (hk : k < vs.length),
      (runLoop c vs s).error = none →
      ∃ out, processVector c vs[k] (runLoop c (vs.take k) s).final
          = Except.ok (out, (runLoop c (vs.take (k + 1)) s).final) ∧
        (runLoop c vs s).outputs[k]? = some out := by
  intro vs
  induction vs with
  | nil => intro s k hk; simp at hk
  | cons v rest ih =>
    intro s k hk herr
    simp only [runLoop] at herr
    split at herr
    · simp at herr
    · rename_i r hr
      simp only at herr
      cases k with
      | zero =>
        refine ⟨r.1, ?_, ?_⟩
        · simp [runLoop, hr]
        · simp [runLoop, hr]
      | succ k =>
        have hk2 : k < rest.length := by simpa using hk
        obtain ⟨out, h1, h2⟩ := ih r.2 k hk2 herr
        refine ⟨out, ?_, ?_⟩
        · simpa [runLoop, hr] using h1
        · simpa [runLoop, hr] using h2

/-- The stages behind a successful `processVector`. -/
theorem processVector_ok (c : Circuit) (v : List Logic) (s : SimState)
    (res : List Logic × SimState) (h : processVector c v s = Except.ok res) :
    ∃ a r, assignPrimaryInputs c.nets v
          (latchRegisters s.nextState c.elements s.currentState) = Except.ok a ∧
      converge c.elements a = Except.ok r ∧
      res.1 = primaryOutputs c.nets r.currentState ∧
      res.2.currentState = r.currentState ∧
      res.2.nextState = captureRegisters r.currentState c.elements s.nextState := by
  simp only [processVector] at h
  split at h
  · cases h
  · rename_i a ha
    split at h
    · cases h
    · rename_i r hr
      simp only [Except.ok.injEq] at h
      refine ⟨a, r, ha, hr, ?_, ?_, ?_⟩ <;> rw [← h]

/-- A pass that records no change ends the loop at once. -/
theorem doWhile_of_no_change (els : List Element) (k : Nat) (cur cur1 : NetState)
    (h : combinationalPass els cur = Except.ok (cur1, false)) :
    doWhile els k cur
      = Except.ok { currentState := cur1, changed := false, maxIterations := k } := by
  cases k <;> simp [doWhile, h]

/-- A pass that records a change is followed by another one while the counter
is positive. -/
theorem doWhile_of_change (els : List Element) (k : Nat) (cur cur1 : NetState)
    (h : combinationalPass els cur = Except.ok (cur1, true)) :
    doWhile els (k + 1) cur = doWhile els k cur1 := by
  simp [doWhile, h]

/-- A run in which every vector can be processed from every state raises no
error. -/
theorem runLoop_no_error (c : Circuit) (P : List Logic → Prop)
    (hstep : ∀ v s, P v → ∃ res, processVector c v s = Except.ok res) :
    ∀ (vs : List (List Logic)) (s : SimState),
      (∀ v ∈ vs, P v) → (runLoop c vs s).error = none := by
  intro vs
  induction vs with
  | nil => intro s _; rfl
  | cons v rest ih =>
    intro s hP
    obtain ⟨res, hres⟩ := hstep v s (hP v (List.mem_cons_self _ _))
    simp only [runLoop, hres]
    exact ih res.2 (fun w hw => hP w (List.mem_cons_of_mem _ hw))

/-- A run without error emits one output sequence per vector. -/
theorem runLoop_outputs_length (c : Circuit) :
    ∀ (vs : List (List Logic)) (s : SimState),
      (runLoop c vs s).error = none → (runLoop c vs s).outputs.length = vs.length := by
  intro vs
  induction vs with
  | nil => intro s _; rfl
  | cons v rest ih =>
    intro s herr
    simp only [runLoop] at herr ⊢
    split at herr
    · simp at herr
    · rename_i r hr
      simp only [hr, List.length_cons, Nat.add_right_cancel_iff]
      exact ih r.2 herr

/-- The result of `processVector` from the results of its stages. -/
theorem processVector_eq (c : Circuit) (v : List Logic) (s : SimState)
    (a : NetState) (r : Converged)
    (ha : assignPrimaryInputs c.nets v
      (latchRegisters s.nextState c.elements s.currentState) = Except.ok a)
    (hr : converge c.elements a = Except.ok r) :
    processVector c v s = Except.ok (primaryOutputs c.nets r.currentState,
      { currentState := r.currentState
        nextState := captureRegisters r.currentState c.elements s.nextState }) := by
  simp [processVector, ha, hr]

/-- The single-register circuit emits the pending register value and stores the
value found on net 0. -/
theorem registerCircuit_step (clk : Nat) (x : Logic) (more : List Logic) (s : SimState) :
    ∃ s1, processVector (registerCircuit clk) (x :: more) s
        = Except.ok ([s.nextState 1], s1) ∧ s1.nextState 1 = x := by
  have ha : assignPrimaryInputs (registerCircuit clk).nets (x :: more)
      (latchRegisters s.nextState (registerCircuit clk).elements s.currentState)
      = Except.ok ((s.currentState.set 1 (s.nextState 1)).set 0 x) := by
    simp [assignPrimaryInputs, assignLoop, latchRegisters, registerPins, registerCircuit]
  have hr : converge (registerCircuit clk).elements
      ((s.currentState.set 1 (s.nextState 1)).set 0 x)
      = Except.ok { currentState := (s.currentState.set 1 (s.nextState 1)).set 0 x
                    changed := false, maxIterations := maxIterations - 1 } := by
    apply doWhile_of_no_change
    simp [combinationalPass, passLoop, registerCircuit]
  rw [processVector_eq _ _ _ _ _ ha hr]
  refine ⟨{ currentState := (s.currentState.set 1 (s.nextState 1)).set 0 x
            nextState := captureRegisters ((s.currentState.set 1 (s.nextState 1)).set 0 x)
              (registerCircuit clk).elements s.nextState }, ?_, ?_⟩
  · simp [primaryOutputs, outputsLoop, isPrimaryOutput, registerCircuit, NetState.set]
  · simp [captureRegisters, registerPins, registerCircuit, NetState.set]

/-- The AND gate never fails. -/
theorem evaluateGate_and_ok (inputs : List Logic) :
    ∃ y, evaluateGate ElementType.And inputs = Except.ok y := by
  simp only [evaluateGate]
  split_ifs
  · exact ⟨_, rfl⟩
  · exact ⟨_, rfl⟩
  · exact ⟨_, rfl⟩

/-- One pass over the single AND gate of `andCircuit`. -/
theorem andCircuit_pass (cur : NetState) (y : Logic)
    (hy : evaluateGate ElementType.And [cur 0, cur 1] = Except.ok y) :
    combinationalPass andCircuit.elements cur
      = Except.ok (if cur 2 ≠ y then (cur.set 2 y, true) else (cur, false)) := by
  simp only [combinationalPass, passLoop, andCircuit, List.map, hy, updateOutputs]
  split_ifs <;> simp_all

/-- The convergence loop on `andCircuit` settles net 2 on the AND of nets 0
and 1 and leaves these two alone. -/
theorem andCircuit_doWhile (cur : NetState) (y : Logic) (k : Nat)
    (hy : evaluateGate ElementType.And [cur 0, cur 1] = Except.ok y) :
    ∃ r, doWhile andCircuit.elements (k + 1) cur = Except.ok r ∧ r.currentState 2 = y := by
  have hpass := andCircuit_pass cur y hy
  by_cases h2 : cur 2 = y
  · rw [if_neg (not_not.mpr h2)] at hpass
    exact ⟨_, doWhile_of_no_change _ _ _ _ hpass, h2⟩
  · rw [if_pos h2] at hpass
    have hy1 : evaluateGate ElementType.And [(cur.set 2 y) 0, (cur.set 2 y) 1]
        = Except.ok y := by
      rw [NetState.set_other _ _ _ _ (by decide), NetState.set_other _ _ _ _ (by decide)]
      exact hy
    have hpass1 := andCircuit_pass (cur.set 2 y) y hy1
    rw [if_neg (not_not.mpr (NetState.set_same _ _ _))] at hpass1
    refine ⟨{ currentState := cur.set 2 y, changed := false, maxIterations := k }, ?_, ?_⟩
    · rw [doWhile_of_change _ _ _ _ hpass]
      exact doWhile_of_no_change _ _ _ _ hpass1
    · exact NetState.set_same cur 2 y

/-- Processing the vector `[a, b]` on `andCircuit` emits the AND of `a` and
`b`, whatever the state. -/
theorem andCircuit_step (a b y : Logic) (s : SimState)
    (hy : evaluateGate ElementType.And [a, b] = Except.ok y) :
    ∃ s1, processVector andCircuit [a, b] s = Except.ok ([y], s1) := by
  have ha : assignPrimaryInputs andCircuit.nets [a, b]
      (latchRegisters s.nextState andCircuit.elements s.currentState)
      = Except.ok ((s.currentState.set 0 a).set 1 b) := by
    simp [assignPrimaryInputs, assignLoop, latchRegisters, andCircuit]
  have hy1 : evaluateGate ElementType.And
      [((s.currentState.set 0 a).set 1 b) 0, ((s.currentState.set 0 a).set 1 b) 1]
      = Except.ok y := by
    simpa [NetState.set] using hy
  obtain ⟨r, hr, hr2⟩ := andCircuit_doWhile _ y 98 hy1
  have hconv : converge andCircuit.elements ((s.currentState.set 0 a).set 1 b)
      = Except.ok r := hr
  rw [processVector_eq _ _ _ _ _ ha hconv]
  refine ⟨{ currentState := r.currentState
            nextState := captureRegisters r.currentState andCircuit.elements s.nextState },
    ?_⟩
  simp [primaryOutputs, outputsLoop, isPrimaryOutput, andCircuit, hr2]

/-! ## Success and failure of the stages -/

/-- The assignment loop succeeds when the vector still holds one value for
every remaining primary input. -/
theorem assignLoop_ok (vec : List Logic) :
    ∀ (nets : List Net) (i k : Nat) (cur : NetState),
      k + primaryInputCount nets ≤ vec.length →
      ∃ a, assignLoop vec nets i k cur = Except.ok a := by
  intro nets
  induction nets with
  | nil => intro i k cur _; exact ⟨cur, rfl⟩
  | cons n rest ih =>
    intro i k cur h
    simp only [assignLoop]
    by_cases hn : n.inElement = none
    · have hcount : primaryInputCount (n :: rest) = primaryInputCount rest + 1 := by
        simp [primaryInputCount, List.countP_cons, hn]
      rw [hcount] at h
      have hk : k < vec.length := by omega
      rw [if_pos hn, List.getElem?_eq_getElem hk]
      exact ih _ _ _ (by omega)
    · have hcount : primaryInputCount (n :: rest) = primaryInputCount rest := by
        simp [primaryInputCount, List.countP_cons, hn]
      rw [hcount] at h
      rw [if_neg hn]
      exact ih _ _ _ h

/-- The guarded assignment loop answers `readPastEnd` on a vector that holds
fewer values than there are primary inputs left. -/
theorem assignLoop_short (vec : List Logic) :
    ∀ (nets : List Net) (i k : Nat) (cur : NetState),
      k ≤ vec.length → vec.length < k + primaryInputCount nets →
      assignLoop vec nets i k cur = Except.error SimError.readPastEnd := by
  intro nets
  induction nets with
  | nil =>
    intro i k cur h1 h2
    simp [primaryInputCount] at h2
    omega
  | cons n rest ih =>
    intro i k cur h1 h2
    simp only [assignLoop]
    by_cases hn : n.inElement = none
    · have hcount : primaryInputCount (n :: rest) = primaryInputCount rest + 1 := by
        simp [primaryInputCount, List.countP_cons, hn]
      rw [hcount] at h2
      rw [if_pos hn]
      by_cases hk : k < vec.length
      · rw [List.getElem?_eq_getElem hk]
        exact ih _ _ _ (by omega) (by omega)
      · have hnone : vec[k]? = none := List.getElem?_eq_none (by omega)
        rw [hnone]
    · have hcount : primaryInputCount (n :: rest) = primaryInputCount rest := by
        simp [primaryInputCount, List.countP_cons, hn]
      rw [hcount] at h2
      rw [if_neg hn]
      exact ih _ _ _ h1 h2

/-- The three supported gate kinds evaluate, a NOT gate provided it has an
input. -/
theorem evaluateGate_ok (type : ElementType) (inputs : List Logic)
    (hkind : type = ElementType.Not ∨ type = ElementType.And ∨ type = ElementType.Or)
    (hnot : type = ElementType.Not → inputs ≠ []) :
    ∃ y, evaluateGate type inputs = Except.ok y := by
  rcases hkind with h | h | h
  · subst h
    cases inputs with
    | nil => exact absurd rfl (hnot rfl)
    | cons v more =>
      simp only [evaluateGate]
      split_ifs
      · exact ⟨_, rfl⟩
      · exact ⟨_, rfl⟩
      · exact ⟨_, rfl⟩
  · subst h
    exact evaluateGate_and_ok inputs
  · subst h
    simp only [evaluateGate]
    split_ifs
    · exact ⟨_, rfl⟩
    · exact ⟨_, rfl⟩
    · exact ⟨_, rfl⟩

/-- Every kind other than the four named ones takes the `default:` branch. -/
theorem evaluateGate_unsupported (type : ElementType) (inputs : List Logic)
    (h1 : type ≠ ElementType.Not) (h2 : type ≠ ElementType.And)
    (h3 : type ≠ ElementType.Or) :
    evaluateGate type inputs = Except.error SimError.unsupportedGate := by
  cases type with
  | Not => exact absurd rfl h1
  | And => exact absurd rfl h2
  | Or => exact absurd rfl h3
  | Dff => rfl
  | Other tag => rfl

/-- A pass over supported elements succeeds. -/
theorem passLoop_ok :
    ∀ (els : List Element),
      (∀ e ∈ els, e.type ≠ ElementType.Dff →
        e.type = ElementType.Not ∨ e.type = ElementType.And ∨ e.type = ElementType.Or) →
      (∀ e ∈ els, e.type = ElementType.Not → e.inNets ≠ []) →
      ∀ (cur : NetState) (changed : Bool), ∃ r, passLoop els cur changed = Except.ok r := by
  intro els
  induction els with
  | nil => intro _ _ cur changed; exact ⟨(cur, changed), rfl⟩
  | cons e rest ih =>
    intro hkind hnot cur changed
    have ih1 := ih (fun x hx => hkind x (List.mem_cons_of_mem _ hx))
      (fun x hx => hnot x (List.mem_cons_of_mem _ hx))
    simp only [passLoop]
    by_cases hty : e.type = ElementType.Dff
    · rw [if_pos hty]
      exact ih1 cur changed
    · rw [if_neg hty]
      obtain ⟨y, hy⟩ := evaluateGate_ok e.type (e.inNets.map cur)
        (hkind e (List.mem_cons_self _ _) hty)
        (fun h hnil => hnot e (List.mem_cons_self _ _) h (List.map_eq_nil_iff.mp hnil))
      rw [hy]
      exact ih1 _ _

/-- The convergence loop succeeds when every pass does. -/
theorem doWhile_ok (els : List Element)
    (hpass : ∀ cur : NetState, ∃ r, combinationalPass els cur = Except.ok r) :
    ∀ (k : Nat) (cur : NetState), ∃ r, doWhile els k cur = Except.ok r := by
  intro k
  induction k with
  | zero =>
    intro cur
    obtain ⟨r, hr⟩ := hpass cur
    exact ⟨{ currentState := r.1, changed := r.2, maxIterations := 0 },
      by simp only [doWhile, hr]⟩
  | succ k ih =>
    intro cur
    obtain ⟨r, hr⟩ := hpass cur
    simp only [doWhile, hr]
    split_ifs
    · exact ih _
    · exact ⟨_, rfl⟩

/-- A vector that is long enough is processed without error on a circuit of
supported elements. -/
theorem processVector_succeeds (c : Circuit) (v : List Logic) (s : SimState)
    (hkind : ∀ e ∈ c.elements, e.type ≠ ElementType.Dff →
      e.type = ElementType.Not ∨ e.type = ElementType.And ∨ e.type = ElementType.Or)
    (hnot : ∀ e ∈ c.elements, e.type = ElementType.Not → e.inNets ≠ [])
    (hlen : primaryInputCount c.nets ≤ v.length) :
    ∃ res, processVector c v s = Except.ok res := by
  obtain ⟨a, ha⟩ := assignLoop_ok v c.nets 0 0
    (latchRegisters s.nextState c.elements s.currentState) (by omega)
  obtain ⟨r, hr⟩ := doWhile_ok c.elements
    (fun cur => passLoop_ok c.elements hkind hnot cur false) (maxIterations - 1) a
  exact ⟨_, processVector_eq c v s a r ha hr⟩

/-- A pass stops at the first element of an unsupported kind. -/
theorem passLoop_unsupported :
    ∀ (els : List Element),
      (∃ e ∈ els, e.type ≠ ElementType.Not ∧ e.type ≠ ElementType.And ∧
        e.type ≠ ElementType.Or ∧ e.type ≠ ElementType.Dff) →
      (∀ e ∈ els, e.type = ElementType.Not → e.inNets ≠ []) →
      ∀ (cur : NetState) (changed : Bool),
        passLoop els cur changed = Except.error SimError.unsupportedGate := by
  intro els
  induction els with
  | nil => intro h; obtain ⟨e, he, _⟩ := h; cases he
  | cons e rest ih =>
    intro hex hnot cur changed
    have hnot1 : ∀ x ∈ rest, x.type = ElementType.Not → x.inNets ≠ [] :=
      fun x hx => hnot x (List.mem_cons_of_mem _ hx)
    simp only [passLoop]
    by_cases hty : e.type = ElementType.Dff
    · rw [if_pos hty]
      obtain ⟨u, hu, hu1, hu2, hu3, hu4⟩ := hex
      rcases List.mem_cons.mp hu with hue | hur
      · subst hue
        exact absurd hty hu4
      · exact ih ⟨u, hur, hu1, hu2, hu3, hu4⟩ hnot1 cur changed
    · rw [if_neg hty]
      by_cases hsup : e.type = ElementType.Not ∨ e.type = ElementType.And ∨
          e.type = ElementType.Or
      · obtain ⟨y, hy⟩ := evaluateGate_ok e.type (e.inNets.map cur) hsup
          (fun h hnil => hnot e (List.mem_cons_self _ _) h (List.map_eq_nil_iff.mp hnil))
        rw [hy]
        obtain ⟨u, hu, hu1, hu2, hu3, hu4⟩ := hex
        rcases List.mem_cons.mp hu with hue | hur
        · subst hue
          rcases hsup with h | h | h
          · exact absurd h hu1
          · exact absurd h hu2
          · exact absurd h hu3
        · exact ih ⟨u, hur, hu1, hu2, hu3, hu4⟩ hnot1 _ _
      · rw [evaluateGate_unsupported e.type _ (fun h => hsup (Or.inl h))
          (fun h => hsup (Or.inr (Or.inl h))) (fun h => hsup (Or.inr (Or.inr h)))]

/-- A run over `pre ++ post` continues the run over `pre`. -/
theorem runLoop_append (c : Circuit) (post : List (List Logic)) :
    ∀ (pre : List (List Logic)) (s : SimState),
      (runLoop c pre s).error = none →
      (runLoop c (pre ++ post) s).outputs
          = (runLoop c pre s).outputs ++ (runLoop c post (runLoop c pre s).final).outputs ∧
        (runLoop c (pre ++ post) s).error
          = (runLoop c post (runLoop c pre s).final).error := by
  intro pre
  induction pre with
  | nil => intro s _; simp [runLoop]
  | cons v rest ih =>
    intro s herr
    simp only [runLoop] at herr
    split at herr
    · simp at herr
    · rename_i r hr
      simp only at herr
      obtain ⟨h1, h2⟩ := ih r.2 herr
      simp only [List.cons_append, runLoop, hr, List.cons.injEq, true_and]
      exact ⟨h1, h2⟩

/-! ## Passes that record no change -/

/-- Once raised, the flag `changed` stays raised while outputs are written. -/
theorem updateOutputs_flag_true (output : Logic) :
    ∀ (outs : List Nat) (cur : NetState), (updateOutputs output outs cur true).2 = true := by
  intro outs
  induction outs with
  | nil => intro cur; rfl
  | cons o rest ih =>
    intro cur
    simp only [updateOutputs]
    split_ifs
    · exact ih _
    · exact ih _

/-- If the flag is down after the outputs of a gate were written, it was down
before, nothing was written and every output net already held the value. -/
theorem updateOutputs_no_change (output : Logic) :
    ∀ (outs : List Nat) (cur : NetState) (changed : Bool),
      (updateOutputs output outs cur changed).2 = false →
      changed = false ∧ (updateOutputs output outs cur changed).1 = cur ∧
        ∀ o ∈ outs, cur o = output := by
  intro outs
  induction outs with
  | nil =>
    intro cur changed h
    exact ⟨h, rfl, fun o ho => by cases ho⟩
  | cons o rest ih =>
    intro cur changed h
    simp only [updateOutputs] at h ⊢
    by_cases hne : cur o ≠ output
    · rw [if_pos hne] at h
      rw [updateOutputs_flag_true] at h
      cases h
    · rw [if_neg hne] at h ⊢
      obtain ⟨h1, h2, h3⟩ := ih cur changed h
      refine ⟨h1, h2, ?_⟩
      intro x hx
      rcases List.mem_cons.mp hx with hxo | hxr
      · rw [hxo]; exact not_not.mp hne
      · exact h3 x hxr

/-- Once raised, the flag `changed` stays raised until the end of the pass. -/
theorem passLoop_flag_true :
    ∀ (els : List Element) (cur : NetState) (r : NetState × Bool),
      passLoop els cur true = Except.ok r → r.2 = true := by
  intro els
  induction els with
  | nil =>
    intro cur r h
    simp only [passLoop, Except.ok.injEq] at h
    rw [← h]
  | cons e rest ih =>
    intro cur r h
    simp only [passLoop] at h
    split_ifs at h
    · exact ih _ _ h
    · split at h
      · cases h
      · rw [updateOutputs_flag_true] at h
        exact ih _ _ h

/-- If the flag is down at the end of a pass, it was down at its start, the
pass wrote nothing, and every output net of every non-register element held
the value of its gate throughout. -/
theorem passLoop_no_change :
    ∀ (els : List Element) (cur : NetState) (changed : Bool) (r : NetState × Bool),
      passLoop els cur changed = Except.ok r → r.2 = false →
      changed = false ∧ r.1 = cur ∧
        ∀ e ∈ els, e.type ≠ ElementType.Dff →
          ∃ y, evaluateGate e.type (e.inNets.map cur) = Except.ok y ∧
            ∀ o ∈ e.outNets, cur o = y := by
  intro els
  induction els with
  | nil =>
    intro cur changed r h hr
    simp only [passLoop, Except.ok.injEq] at h
    subst h
    exact ⟨hr, rfl, fun e he => by cases he⟩
  | cons e rest ih =>
    intro cur changed r h hr
    simp only [passLoop] at h
    by_cases hty : e.type = ElementType.Dff
    · rw [if_pos hty] at h
      obtain ⟨h1, h2, h3⟩ := ih cur changed r h hr
      refine ⟨h1, h2, ?_⟩
      intro x hx hxty
      rcases List.mem_cons.mp hx with hxe | hxr
      · subst hxe; exact absurd hty hxty
      · exact h3 x hxr hxty
    · rw [if_neg hty] at h
      cases hy : evaluateGate e.type (e.inNets.map cur) with
      | error err => rw [hy] at h; cases h
      | ok y =>
        rw [hy] at h
        simp only at h
        obtain ⟨h1, h2, h3⟩ := ih _ _ r h hr
        obtain ⟨u1, u2, u3⟩ := updateOutputs_no_change y e.outNets cur changed h1
        rw [u2] at h2 h3
        refine ⟨u1, h2, ?_⟩
        intro x hx hxty
        rcases List.mem_cons.mp hx with hxe | hxr
        · subst hxe; exact ⟨y, hy, u3⟩
        · exact h3 x hxr hxty

/-- When the loop ends with the flag down, its last pass started from the array
it ended with. -/
theorem doWhile_last_pass (els : List Element) :
    ∀ (k : Nat) (cur : NetState) (r : Converged),
      doWhile els k cur = Except.ok r → r.changed = false →
      combinationalPass els r.currentState = Except.ok (r.currentState, false) := by
  have hfinal : ∀ (cur : NetState) (p : NetState × Bool),
      combinationalPass els cur = Except.ok p → p.2 = false →
      combinationalPass els p.1 = Except.ok (p.1, false) := by
    intro cur p hp hp2
    obtain ⟨_, h1, _⟩ := passLoop_no_change els cur false p hp hp2
    obtain ⟨p1, p2⟩ := p
    simp only at h1 hp2
    subst h1 hp2
    exact hp
  intro k
  induction k with
  | zero =>
    intro cur r h hch
    simp only [doWhile] at h
    split at h
    · cases h
    · rename_i p hp
      simp only [Except.ok.injEq] at h
      subst h
      exact hfinal cur p hp hch
  | succ k ih =>
    intro cur r h hch
    simp only [doWhile] at h
    split at h
    · cases h
    · rename_i p hp
      split_ifs at h
      · exact ih _ _ h hch
      · simp only [Except.ok.injEq] at h
        subst h
        exact hfinal cur p hp hch

/-! ## Fixed points of the gates -/

/-- Writing a value that every output net already holds changes nothing. -/
theorem updateOutputs_same (output : Logic) :
    ∀ (outs : List Nat) (cur : NetState) (changed : Bool),
      (∀ o ∈ outs, cur o = output) →
      updateOutputs output outs cur changed = (cur, changed) := by
  intro outs
  induction outs with
  | nil => intro cur changed _; rfl
  | cons o rest ih =>
    intro cur changed h
    simp only [updateOutputs]
    rw [if_neg (not_not.mpr (h o (List.mem_cons_self _ _)))]
    exact ih cur changed (fun x hx => h x (List.mem_cons_of_mem _ hx))

/-- A pass over a fixed point writes nothing and keeps the flag. -/
theorem passLoop_fixed :
    ∀ (els : List Element) (cur : NetState) (changed : Bool),
      IsFixedPoint els cur → passLoop els cur changed = Except.ok (cur, changed) := by
  intro els
  induction els with
  | nil => intro cur changed _; rfl
  | cons e rest ih =>
    intro cur changed h
    have hrest : IsFixedPoint rest cur := fun x hx => h x (List.mem_cons_of_mem _ hx)
    simp only [passLoop]
    by_cases hty : e.type = ElementType.Dff
    · rw [if_pos hty]
      exact ih cur changed hrest
    · rw [if_neg hty]
      obtain ⟨y, hy, hout⟩ := h e (List.mem_cons_self _ _) hty
      rw [hy]
      simp only [updateOutputs_same y e.outNets cur changed hout]
      exact ih cur changed hrest

/-- A pass that records no change started from a fixed point. -/
theorem isFixedPoint_of_pass (els : List Element) (cur : NetState) (p : NetState × Bool)
    (hp : combinationalPass els cur = Except.ok p) (hflag : p.2 = false) :
    IsFixedPoint els cur :=
  (passLoop_no_change els cur false p hp hflag).2.2

/-- The array left by a convergence loop that stopped on a pass without change
is a fixed point. -/
theorem isFixedPoint_of_doWhile (els : List Element) (k : Nat) (cur : NetState)
    (r : Converged) (h : doWhile els k cur = Except.ok r) (hflag : r.changed = false) :
    IsFixedPoint els r.currentState :=
  isFixedPoint_of_pass els r.currentState (r.currentState, false)
    (doWhile_last_pass els k cur r h hflag) rfl

/-- A pass over `l1 ++ l2` is a pass over `l1` continued over `l2`. -/
theorem passLoop_append (l2 : List Element) :
    ∀ (l1 : List Element) (cur : NetState) (changed : Bool),
      passLoop (l1 ++ l2) cur changed =
        match passLoop l1 cur changed with
        | Except.error err => Except.error err
        | Except.ok p => passLoop l2 p.1 p.2 := by
  intro l1
  induction l1 with
  | nil => intro cur changed; rfl
  | cons e rest ih =>
    intro cur changed
    simp only [List.cons_append, passLoop]
    by_cases hty : e.type = ElementType.Dff
    · simp only [if_pos hty]
      exact ih cur changed
    · simp only [if_neg hty]
      cases evaluateGate e.type (e.inNets.map cur) with
      | error err => rfl
      | ok y => exact ih _ _

/-- Without combinational feedback, two fixed points of the same gates that
agree on the nets no gate drives agree everywhere. -/
theorem fixed_point_unique (els1 els2 : List Element)
    (hmem : ∀ e, e ∈ els1 ↔ e ∈ els2) (hacyc : Acyclic els1)
    (c1 c2 : NetState) (h1 : IsFixedPoint els1 c1) (h2 : IsFixedPoint els2 c2)
    (hbase : ∀ j, (∀ e ∈ els1, e.type ≠ ElementType.Dff → j ∉ e.outNets) → c1 j = c2 j) :
    ∀ j, c1 j = c2 j := by
  obtain ⟨rank, hrank⟩ := hacyc
  have key : ∀ (n j : Nat), rank j = n → c1 j = c2 j := by
    intro n
    induction n using Nat.strong_induction_on with
    | _ n ih =>
      intro j hj
      by_cases hd : ∃ e ∈ els1, e.type ≠ ElementType.Dff ∧ j ∈ e.outNets
      · obtain ⟨e, he, hty, hjo⟩ := hd
        obtain ⟨y1, hy1, ho1⟩ := h1 e he hty
        obtain ⟨y2, hy2, ho2⟩ := h2 e ((hmem e).mp he) hty
        have hin : e.inNets.map c1 = e.inNets.map c2 := by
          apply List.map_congr_left
          intro i hi
          exact ih (rank i) (hj ▸ hrank e he hty i hi j hjo) i rfl
        rw [hin, hy2] at hy1
        rw [ho1 j hjo, ho2 j hjo]
        exact (Except.ok.inj hy1).symm
      · apply hbase
        intro e he hty hjo
        exact hd ⟨e, he, hty, hjo⟩
  intro j
  exact key (rank j) j rfl

/-! ## The inverter chain, in both orders -/

theorem inverterChain_succ (k : Nat) :
    inverterChain (k + 1) = inverterChain k ++
      [{ type := ElementType.Not, inNets := [k], outNets := [k + 1] }] := by
  simp [inverterChain, List.range_succ]

theorem inverterChain_reverse_succ (k : Nat) :
    (inverterChain (k + 1)).reverse =
      { type := ElementType.Not, inNets := [k], outNets := [k + 1] }
        :: (inverterChain k).reverse := by
  simp [inverterChain_succ]

theorem evaluateGate_not_alternating (j : Nat) :
    evaluateGate ElementType.Not [alternating j] = Except.ok (alternating (j + 1)) := by
  rcases Nat.mod_two_eq_zero_or_one j with h | h
  · have h1 : (j + 1) % 2 = 1 := by omega
    simp [evaluateGate, alternating, h, h1]
  · have h1 : (j + 1) % 2 = 0 := by omega
    simp [evaluateGate, alternating, h, h1]

theorem alternating_ne_X (j : Nat) : alternating j ≠ Logic.logicX := by
  unfold alternating
  split_ifs <;> decide

theorem chainState_set (p : Nat) :
    (chainState p).set (p + 1) (alternating (p + 1)) = chainState (p + 1) := by
  funext j
  simp only [NetState.set, chainState]
  by_cases h1 : j = p + 1
  · simp [h1]
  · by_cases h2 : j ≤ p
    · have h3 : j ≤ p + 1 := by omega
      simp [h1, h2, h3]
    · have h3 : ¬ j ≤ p + 1 := by omega
      simp [h1, h2, h3]

/-- One inverter of the chain evaluated on `chainState p`. -/
theorem inverter_on_chainState (k p : Nat) (changed : Bool) :
    (∃ y, evaluateGate ElementType.Not [chainState p k] = Except.ok y ∧
      updateOutputs y [k + 1] (chainState p) changed
        = if k = p then (chainState (p + 1), true) else (chainState p, changed)) := by
  by_cases hkp : k = p
  · subst hkp
    refine ⟨alternating (k + 1), ?_, ?_⟩
    · simp only [chainState, le_refl, if_true]
      exact evaluateGate_not_alternating k
    · have hX : chainState k (k + 1) = Logic.logicX := by simp [chainState]
      simp only [updateOutputs, hX, if_true]
      rw [if_pos (fun h => alternating_ne_X (k + 1) h.symm), chainState_set]
  · by_cases hlt : k < p
    · refine ⟨alternating (k + 1), ?_, ?_⟩
      · have : chainState p k = alternating k := by simp [chainState, Nat.le_of_lt hlt]
        rw [this]
        exact evaluateGate_not_alternating k
      · have hv : chainState p (k + 1) = alternating (k + 1) := by
          simp [chainState, Nat.succ_le_of_lt hlt]
        simp [updateOutputs, hv, hkp]
    · have hgt : p < k := by omega
      refine ⟨Logic.logicX, ?_, ?_⟩
      · have : chainState p k = Logic.logicX := by simp [chainState, Nat.not_le.mpr hgt]
        rw [this]
        rfl
      · have hv : chainState p (k + 1) = Logic.logicX := by
          have : ¬ k + 1 ≤ p := by omega
          simp [chainState, this]
        simp [updateOutputs, hv, hkp]

/-- A pass over the reversed chain settles exactly one more net. -/
theorem passLoop_reverse_chain :
    ∀ (k p : Nat) (changed : Bool),
      passLoop (inverterChain k).reverse (chainState p) changed
        = Except.ok (if p < k then (chainState (p + 1), true) else (chainState p, changed)) := by
  intro k
  induction k with
  | zero => intro p changed; simp [inverterChain, passLoop]
  | succ k ih =>
    intro p changed
    obtain ⟨y, hy, hupd⟩ := inverter_on_chainState k p changed
    rw [inverterChain_reverse_succ]
    simp only [passLoop, reduceCtorEq, if_false, List.map, hy, hupd]
    by_cases hkp : k = p
    · subst hkp
      simp only [if_true]
      rw [ih]
      simp
    · simp only [if_neg hkp]
      rw [ih]
      by_cases hlt : p < k
      · have : p < k + 1 := by omega
        simp [hlt, this]
      · have : ¬ p < k + 1 := by omega
        simp [hlt, this]

/-- A pass over the chain in ascending order settles every net. -/
theorem passLoop_chain :
    ∀ (k : Nat),
      passLoop (inverterChain k) (chainState 0) false
        = Except.ok (chainState k, decide (0 < k)) := by
  intro k
  induction k with
  | zero => simp [inverterChain, passLoop]
  | succ k ih =>
    obtain ⟨y, hy, hupd⟩ := inverter_on_chainState k k (decide (0 < k))
    rw [inverterChain_succ, passLoop_append, ih]
    simp only [passLoop, reduceCtorEq, if_false, List.map, hy, hupd, if_true]
    simp

/-- The settled chain is a fixed point of its inverters, whatever their order. -/
theorem isFixedPoint_chain (n p : Nat) (hnp : n ≤ p) (els : List Element)
    (hels : ∀ e, e ∈ els ↔ e ∈ inverterChain n) :
    IsFixedPoint els (chainState p) := by
  intro e he _
  have he1 := (hels e).mp he
  simp only [inverterChain, List.mem_map, List.mem_range] at he1
  obtain ⟨i, hi, rfl⟩ := he1
  refine ⟨alternating (i + 1), ?_, ?_⟩
  · have : chainState p i = alternating i := by
      have : i ≤ p := by omega
      simp [chainState, this]
    simp only [List.map, this]
    exact evaluateGate_not_alternating i
  · intro o ho
    simp only [List.mem_singleton] at ho
    subst ho
    have : i + 1 ≤ p := by omega
    simp [chainState, this]

/-- The convergence loop on the reversed chain: it settles one net per pass and
stops either on the pass that finds the chain settled or on its last pass. -/
theorem doWhile_reverse_chain (n : Nat) :
    ∀ (m p : Nat), p ≤ n →
      doWhile (inverterChain n).reverse m (chainState p)
        = Except.ok (if n - p ≤ m
            then { currentState := chainState n, changed := false, maxIterations := m - (n - p) }
            else { currentState := chainState (p + m + 1), changed := true,
                   maxIterations := 0 }) := by
  intro m
  induction m with
  | zero =>
    intro p hp
    simp only [doWhile, combinationalPass, passLoop_reverse_chain]
    by_cases h : p < n
    · have h1 : ¬ n - p ≤ 0 := by omega
      simp [h, h1]
    · have h1 : n - p ≤ 0 := by omega
      have h2 : p = n := by omega
      simp [h, h1, h2]
  | succ m ih =>
    intro p hp
    simp only [doWhile, combinationalPass, passLoop_reverse_chain]
    by_cases h : p < n
    · simp only [if_pos h, if_true]
      rw [ih (p + 1) (by omega)]
      by_cases h1 : n - p ≤ m + 1
      · have h2 : n - (p + 1) ≤ m := by omega
        have h3 : m - (n - (p + 1)) = m + 1 - (n - p) := by omega
        simp [h1, h2, h3]
      · have h2 : ¬ n - (p + 1) ≤ m := by omega
        have h3 : p + 1 + m + 1 = p + (m + 1) + 1 := by omega
        simp [h1, h2, h3]
    · have h1 : n - p ≤ m + 1 := by omega
      have h2 : p = n := by omega
      simp [h, h1, h2]

/-- The convergence loop on the chain in ascending order stops after its
second pass. -/
theorem doWhile_chain (n m : Nat) (hn : 0 < n) :
    doWhile (inverterChain n) (m + 1) (chainState 0)
      = Except.ok { currentState := chainState n, changed := false, maxIterations := m } := by
  have h1 : combinationalPass (inverterChain n) (chainState 0)
      = Except.ok (chainState n, true) := by
    simp [combinationalPass, passLoop_chain, hn]
  have h2 : combinationalPass (inverterChain n) (chainState n)
      = Except.ok (chainState n, false) :=
    passLoop_fixed _ _ _ (isFixedPoint_chain n n (le_refl _) _ (fun _ => Iff.rfl))
  rw [doWhile_of_change _ _ _ _ h1]
  exact doWhile_of_no_change _ _ _ _ h2

theorem acyclic_inverterChain (n : Nat) : Acyclic (inverterChain n) := by
  refine ⟨fun j => j, ?_⟩
  intro e he _ i hi o ho
  simp only [inverterChain, List.mem_map, List.mem_range] at he
  obtain ⟨k, _, rfl⟩ := he
  simp only [List.mem_singleton] at hi ho
  show i < o
  omega

/-! ## Circuits without registers -/

theorem passesFrom_one (els : List Element) (cur : NetState) :
    passesFrom els 1 cur = combinationalPass els cur := by
  simp [passesFrom]

/-- After a first pass, `n + 1` passes are `n` passes from its result. -/
theorem passesFrom_shift (els : List Element) (cur : NetState) (p : NetState × Bool)
    (hp : combinationalPass els cur = Except.ok p) :
    ∀ n, 1 ≤ n → passesFrom els (n + 1) cur = passesFrom els n p.1 := by
  intro n
  induction n with
  | zero => intro h; omega
  | succ n ih =>
    intro _
    by_cases hn : n = 0
    · subst hn
      simp [passesFrom, hp]
    · have := ih (by omega)
      rw [passesFrom, this]
      rfl

/-- The loop entered with counter value `k` (after its decrement) makes between
1 and `k + 1` passes; every pass but the last records a change, and the last
one records none unless it is pass `k + 1`. -/
theorem doWhile_passes (els : List Element) :
    ∀ (k : Nat) (cur : NetState) (r : Converged),
      doWhile els k cur = Except.ok r →
      ∃ n, 1 ≤ n ∧ n ≤ k + 1 ∧ r.maxIterations = k + 1 - n ∧
        passesFrom els n cur = Except.ok (r.currentState, r.changed) ∧
        (∀ m, 1 ≤ m → m < n → ∃ p, passesFrom els m cur = Except.ok p ∧ p.2 = true) ∧
        (n < k + 1 → r.changed = false) := by
  intro k
  induction k with
  | zero =>
    intro cur r h
    simp only [doWhile] at h
    cases hp : combinationalPass els cur with
    | error err => rw [hp] at h; cases h
    | ok p =>
      rw [hp] at h
      simp only [Except.ok.injEq] at h
      subst h
      exact ⟨1, le_refl _, le_refl _, rfl, by rw [passesFrom_one, hp],
        fun m h1 h2 => by omega, fun h => by omega⟩
  | succ k ih =>
    intro cur r h
    simp only [doWhile] at h
    cases hp : combinationalPass els cur with
    | error err => rw [hp] at h; cases h
    | ok p =>
      rw [hp] at h
      simp only at h
      by_cases hch : p.2 = true
      · rw [if_pos hch] at h
        obtain ⟨n, hn1, hn2, hmax, hpass, hearly, hlast⟩ := ih p.1 r h
        refine ⟨n + 1, by omega, by omega, by omega, ?_, ?_, fun hlt => hlast (by omega)⟩
        · rw [passesFrom_shift els cur p hp n hn1]
          exact hpass
        · intro m hm1 hm2
          by_cases hm : m = 1
          · subst hm
            exact ⟨p, by rw [passesFrom_one, hp], hch⟩
          · obtain ⟨q, hq, hq2⟩ := hearly (m - 1) (by omega) (by omega)
            refine ⟨q, ?_, hq2⟩
            have hshift := passesFrom_shift els cur p hp (m - 1) (by omega)
            rw [show m - 1 + 1 = m by omega] at hshift
            rw [hshift]
            exact hq
      · rw [if_neg hch] at h
        simp only [Except.ok.injEq] at h
        subst h
        exact ⟨1, le_refl _, by omega, by simp, by rw [passesFrom_one, hp],
          fun m h1 h2 => by omega, fun _ => by simpa using hch⟩

/-! ## Malformed registers -/

theorem registerPins_eq_none_iff (e : Element) :
    registerPins e = none ↔ (e.inNets.length < 2 ∨ e.outNets = []) := by
  unfold registerPins
  rcases hout : e.outNets with _ | ⟨q, outs⟩
  · simp
  · rcases hin : e.inNets with _ | ⟨a, _ | ⟨d, ins⟩⟩ <;> simp

/-- The latch treats a list with and without its malformed registers alike. -/
theorem latchRegisters_filter (next : NetState) :
    ∀ (els : List Element) (cur : NetState),
      latchRegisters next els cur
        = latchRegisters next (els.filter (fun e => !isMalformedRegister e)) cur := by
  intro els
  induction els with
  | nil => intro cur; rfl
  | cons e rest ih =>
    intro cur
    by_cases hm : isMalformedRegister e = true
    · have hm1 := hm
      simp only [isMalformedRegister, decide_eq_true_eq] at hm1
      have hpins := (registerPins_eq_none_iff e).mpr hm1.2
      simp only [List.filter, hm, Bool.not_true, latchRegisters, hm1.1, if_true, hpins]
      exact ih cur
    · have hm2 : isMalformedRegister e = false := by simpa using hm
      simp only [List.filter, hm2, Bool.not_false, latchRegisters]
      split_ifs
      · rcases registerPins e with _ | ⟨q, d⟩
        · exact ih cur
        · exact ih _
      · exact ih cur

/-- The capture treats a list with and without its malformed registers alike. -/
theorem captureRegisters_filter (cur : NetState) :
    ∀ (els : List Element) (next : NetState),
      captureRegisters cur els next
        = captureRegisters cur (els.filter (fun e => !isMalformedRegister e)) next := by
  intro els
  induction els with
  | nil => intro next; rfl
  | cons e rest ih =>
    intro next
    by_cases hm : isMalformedRegister e = true
    · have hm1 := hm
      simp only [isMalformedRegister, decide_eq_true_eq] at hm1
      have hpins := (registerPins_eq_none_iff e).mpr hm1.2
      simp only [List.filter, hm, Bool.not_true, captureRegisters, hm1.1, if_true, hpins]
      exact ih next
    · have hm2 : isMalformedRegister e = false := by simpa using hm
      simp only [List.filter, hm2, Bool.not_false, captureRegisters]
      split_ifs
      · rcases registerPins e with _ | ⟨q, d⟩
        · exact ih next
        · exact ih _
      · exact ih next

/-- Latch and capture write nothing when no register passes the guard. -/
theorem registers_all_malformed (a b : NetState) :
    ∀ (els : List Element),
      (∀ e ∈ els, e.type = ElementType.Dff → (e.inNets.length < 2 ∨ e.outNets = [])) →
      latchRegisters b els a = a ∧ captureRegisters a els b = b := by
  intro els
  induction els with
  | nil => intro _; exact ⟨rfl, rfl⟩
  | cons e rest ih =>
    intro h
    obtain ⟨h1, h2⟩ := ih (fun x hx => h x (List.mem_cons_of_mem _ hx))
    simp only [latchRegisters, captureRegisters]
    by_cases hty : e.type = ElementType.Dff
    · have hpins := (registerPins_eq_none_iff e).mpr (h e (List.mem_cons_self _ _) hty)
      simp only [if_pos hty, hpins]
      exact ⟨h1, h2⟩
    · simp only [if_neg hty]
      exact ⟨h1, h2⟩

/-! ## Primary inputs and primary outputs -/

theorem primaryInputIdsFrom_length :
    ∀ (nets : List Net) (i : Nat),
      (primaryInputIdsFrom nets i).length = primaryInputCount nets := by
  intro nets
  induction nets with
  | nil => intro i; rfl
  | cons n rest ih =>
    intro i
    by_cases hn : n.inElement = none
    · simp [primaryInputIdsFrom, primaryInputCount, List.countP_cons, hn, ih]
    · simp [primaryInputIdsFrom, primaryInputCount, List.countP_cons, hn, ih]

theorem primaryInputIdsFrom_mem (id : Nat) :
    ∀ (nets : List Net) (i : Nat),
      id ∈ primaryInputIdsFrom nets i ↔
        (i ≤ id ∧ ∃ n, nets[id - i]? = some n ∧ n.inElement = none) := by
  intro nets
  induction nets with
  | nil => intro i; simp [primaryInputIdsFrom]
  | cons n rest ih =>
    intro i
    have hstep : ∀ (h : i + 1 ≤ id) (m : Net),
        (n :: rest)[id - i]? = some m ↔ rest[id - (i + 1)]? = some m := by
      intro h m
      have : id - i = (id - (i + 1)) + 1 := by omega
      rw [this, List.getElem?_cons_succ]
    by_cases hn : n.inElement = none
    · simp only [primaryInputIdsFrom, if_pos hn, List.mem_cons, ih]
      constructor
      · rintro (h | ⟨h, m, hm, hmn⟩)
        · subst h
          exact ⟨le_refl _, n, by simp, hn⟩
        · exact ⟨by omega, m, (hstep h m).mpr hm, hmn⟩
      · rintro ⟨h, m, hm, hmn⟩
        by_cases hid : id = i
        · left; exact hid
        · right
          have h1 : i + 1 ≤ id := by omega
          exact ⟨h1, m, (hstep h1 m).mp hm, hmn⟩
    · simp only [primaryInputIdsFrom, if_neg hn, ih]
      constructor
      · rintro ⟨h, m, hm, hmn⟩
        exact ⟨by omega, m, (hstep h m).mpr hm, hmn⟩
      · rintro ⟨h, m, hm, hmn⟩
        have hid : id ≠ i := by
          intro hid
          subst hid
          simp only [Nat.sub_self, List.getElem?_cons_zero, Option.some.injEq] at hm
          subst hm
          exact hn hmn
        have h1 : i + 1 ≤ id := by omega
        exact ⟨h1, m, (hstep h1 m).mp hm, hmn⟩

theorem primaryInputIdsFrom_sorted :
    ∀ (nets : List Net) (i : Nat),
      (primaryInputIdsFrom nets i).Pairwise (fun a b => a < b) := by
  intro nets
  induction nets with
  | nil => intro i; simp [primaryInputIdsFrom]
  | cons n rest ih =>
    intro i
    simp only [primaryInputIdsFrom]
    split_ifs
    · refine List.pairwise_cons.mpr ⟨?_, ih (i + 1)⟩
      intro b hb
      have := ((primaryInputIdsFrom_mem b rest (i + 1)).mp hb).1
      omega
    · exact ih (i + 1)

/-- The assignment loop writes the vector values, in order, to the
primary-input nets, in ascending order. -/
theorem assignLoop_values (vec : List Logic) :
    ∀ (nets : List Net) (i k0 : Nat) (cur a : NetState),
      assignLoop vec nets i k0 cur = Except.ok a →
      ∀ m id, (primaryInputIdsFrom nets i)[m]? = some id → vec[k0 + m]? = some (a id) := by
  intro nets
  induction nets with
  | nil =>
    intro i k0 cur a _ m id hm
    simp [primaryInputIdsFrom] at hm
  | cons n rest ih =>
    intro i k0 cur a h m id hm
    simp only [assignLoop] at h
    by_cases hn : n.inElement = none
    · rw [if_pos hn] at h
      simp only [primaryInputIdsFrom, if_pos hn] at hm
      cases hv : vec[k0]? with
      | none => rw [hv] at h; cases h
      | some v =>
        rw [hv] at h
        simp only at h
        cases m with
        | zero =>
          simp only [List.getElem?_cons_zero, Option.some.injEq] at hm
          subst hm
          have hframe := assignLoop_frame vec i rest (i + 1) (k0 + 1) _ a h
            (fun hle => by omega)
          rw [hframe, NetState.set_same, Nat.add_zero, hv]
        | succ m =>
          simp only [List.getElem?_cons_succ] at hm
          have := ih (i + 1) (k0 + 1) _ a h m id hm
          rw [show k0 + (m + 1) = k0 + 1 + m by omega]
          exact this
    · rw [if_neg hn] at h
      simp only [primaryInputIdsFrom, if_neg hn] at hm
      exact ih (i + 1) k0 cur a h m id hm

theorem isPrimaryOutput_eq (n : Net) :
    isPrimaryOutput n
      = decide (n.outElements = [] ∨ n.outElements.head? = some none) := by
  unfold isPrimaryOutput
  rcases n.outElements with _ | ⟨first, rest⟩
  · simp
  · cases first <;> simp

theorem outputsLoop_eq (cur : NetState) :
    ∀ (nets : List Net) (i : Nat),
      outputsLoop cur nets i
        = ((nets.enumFrom i).filter
            (fun p => decide (p.2.outElements = [] ∨ p.2.outElements.head? = some none))).map
            (fun p => cur p.1) := by
  intro nets
  induction nets with
  | nil => intro i; rfl
  | cons n rest ih =>
    intro i
    simp only [outputsLoop, List.enumFrom_cons, List.filter, isPrimaryOutput_eq, ih]
    split <;> simp_all

/-! ## The printed line -/

theorem printLoop_eq (symbol : Logic → String) (size : Nat) :
    ∀ (rest : List Logic) (v : Logic) (i : Nat) (out : String),
      i + rest.length + 1 = size →
      printLoop symbol size (v :: rest) i out
        = String.intercalate.go (out ++ symbol v) ";" (rest.map symbol) := by
  intro rest
  induction rest with
  | nil =>
    intro v i out h
    have hlast : ¬ i < size - 1 := by simp at h; omega
    simp [printLoop, hlast, String.intercalate.go]
  | cons w rest ih =>
    intro v i out h
    have hmore : i < size - 1 := by simp at h; omega
    have hrec := ih w (i + 1) (out ++ symbol v ++ ";") (by simp at h ⊢; omega)
    rw [printLoop, if_pos hmore, hrec]
    simp [String.intercalate.go]

/-! ## Unknown inputs -/

theorem ofBool_ne_X (b : Bool) : Logic.ofBool b ≠ Logic.logicX := by
  cases b <;> decide

theorem logic0_mem_map_ofBool (bs : List Bool) :
    Logic.logic0 ∈ bs.map Logic.ofBool ↔ bs.all id = false := by
  induction bs with
  | nil => simp
  | cons b rest ih =>
    cases b
    · simp [Logic.ofBool]
    · simp only [List.map, List.mem_cons, List.all_cons, id, Bool.true_and]
      rw [← ih]
      simp [Logic.ofBool]

theorem logic1_mem_map_ofBool (bs : List Bool) :
    Logic.logic1 ∈ bs.map Logic.ofBool ↔ bs.any id = true := by
  induction bs with
  | nil => simp
  | cons b rest ih =>
    cases b
    · simp only [List.map, List.mem_cons, List.any_cons, id, Bool.false_or]
      rw [← ih]
      simp [Logic.ofBool]
    · simp [Logic.ofBool]

theorem logicX_not_mem_map_ofBool (bs : List Bool) :
    Logic.logicX ∉ bs.map Logic.ofBool := by
  intro h
  obtain ⟨b, _, hb⟩ := List.mem_map.mp h
  exact ofBool_ne_X b hb

/-- A known value of the input list is still there after refinement. -/
theorem Refines.mem_of_ne_X {inputs refined : List Logic} (h : Refines inputs refined)
    (v : Logic) (hv : v ≠ Logic.logicX) (hmem : v ∈ inputs) : v ∈ refined := by
  unfold Refines at h
  induction h with
  | nil => cases hmem
  | cons hab _ ih =>
    rcases List.mem_cons.mp hmem with hva | hvr
    · rcases hab with hX | heq
      · exact absurd (hva.trans hX) hv
      · exact List.mem_cons.mpr (Or.inl (hva.trans heq))
    · exact List.mem_cons_of_mem _ (ih hvr)

/-- An input list without `X` has no refinement but itself. -/
theorem Refines.eq_of_no_X {inputs refined : List Logic} (h : Refines inputs refined)
    (hX : Logic.logicX ∉ inputs) : refined = inputs := by
  unfold Refines at h
  induction h with
  | nil => rfl
  | @cons a b l1 l2 hab _ ih =>
    have ha : a ≠ Logic.logicX := fun e => hX (e ▸ List.mem_cons_self _ _)
    rcases hab with h1 | h1
    · exact absurd h1 ha
    · rw [← h1, ih (fun e => hX (List.mem_cons_of_mem _ e))]

/-- A known result of a gate survives the refinement of its inputs. -/
theorem evaluateGate_refines (type : ElementType) (inputs refined : List Logic) (y : Logic)
    (href : Refines inputs refined)
    (hy : evaluateGate type inputs = Except.ok y) (hyX : y ≠ Logic.logicX) :
    evaluateGate type refined = Except.ok y := by
  cases type with
  | Not =>
    unfold Refines at href
    cases href with
    | nil => simp [evaluateGate] at hy
    | cons hab _ =>
      rename_i a b l1 l2
      rcases hab with h1 | h1
      · subst h1
        simp only [evaluateGate, if_true, Except.ok.injEq] at hy
        exact absurd hy.symm hyX
      · subst h1
        simpa [evaluateGate] using hy
  | And =>
    by_cases h0 : Logic.logic0 ∈ inputs
    · have h0r := href.mem_of_ne_X Logic.logic0 (by decide) h0
      simp only [evaluateGate, if_pos h0, Except.ok.injEq] at hy
      subst hy
      simp only [evaluateGate, if_pos h0r]
    · by_cases hX : Logic.logicX ∈ inputs
      · simp only [evaluateGate, if_neg h0, if_pos hX, Except.ok.injEq] at hy
        exact absurd hy.symm hyX
      · rw [href.eq_of_no_X hX]
        exact hy
  | Or =>
    by_cases h1 : Logic.logic1 ∈ inputs
    · have h1r := href.mem_of_ne_X Logic.logic1 (by decide) h1
      simp only [evaluateGate, if_pos h1, Except.ok.injEq] at hy
      subst hy
      simp only [evaluateGate, if_pos h1r]
    · by_cases hX : Logic.logicX ∈ inputs
      · simp only [evaluateGate, if_neg h1, if_pos hX, Except.ok.injEq] at hy
        exact absurd hy.symm hyX
      · rw [href.eq_of_no_X hX]
        exact hy
  | Dff => simp [evaluateGate] at hy
  | Other tag => simp [evaluateGate] at hy

/-! ## Elements in topological order -/

/-- After the outputs of a gate were written, each of them holds the value. -/
theorem updateOutputs_at (output : Logic) (o : Nat) :
    ∀ (outs : List Nat) (cur : NetState) (changed : Bool),
      (o ∈ outs ∨ cur o = output) → (updateOutputs output outs cur changed).1 o = output := by
  intro outs
  induction outs with
  | nil =>
    intro cur changed h
    rcases h with h | h
    · cases h
    · exact h
  | cons x rest ih =>
    intro cur changed h
    simp only [updateOutputs]
    by_cases hx : cur x ≠ output
    · rw [if_pos hx]
      apply ih
      by_cases hox : o = x
      · right; rw [hox]; exact NetState.set_same _ _ _
      · rcases h with h | h
        · rcases List.mem_cons.mp h with h1 | h1
          · exact absurd h1 hox
          · left; exact h1
        · right; rw [NetState.set_other _ _ _ _ hox]; exact h
    · rw [if_neg hx]
      apply ih
      rcases h with h | h
      · rcases List.mem_cons.mp h with h1 | h1
        · right; rw [h1]; exact not_not.mp hx
        · left; exact h1
      · right; exact h

/-- When no net has two driving elements and no element reads a net driven by
itself or by a later element, one pass leaves a fixed point. -/
theorem passLoop_topological :
    ∀ (els : List Element) (cur : NetState) (changed : Bool) (p : NetState × Bool),
      passLoop els cur changed = Except.ok p →
      els.Pairwise (fun e1 e2 => ∀ o ∈ e1.outNets, o ∉ e2.outNets) →
      els.Pairwise (fun e1 e2 => e1.type ≠ ElementType.Dff → e2.type ≠ ElementType.Dff →
        ∀ i ∈ e1.inNets, i ∉ e2.outNets) →
      (∀ e ∈ els, e.type ≠ ElementType.Dff → ∀ i ∈ e.inNets, i ∉ e.outNets) →
      IsFixedPoint els p.1 := by
  intro els
  induction els with
  | nil => intro cur changed p _ _ _ _ e he; cases he
  | cons e rest ih =>
    intro cur changed p h hout htopo hself
    obtain ⟨hout1, hout2⟩ := List.pairwise_cons.mp hout
    obtain ⟨htopo1, htopo2⟩ := List.pairwise_cons.mp htopo
    have hself2 : ∀ x ∈ rest, x.type ≠ ElementType.Dff → ∀ i ∈ x.inNets, i ∉ x.outNets :=
      fun x hx => hself x (List.mem_cons_of_mem _ hx)
    simp only [passLoop] at h
    by_cases hty : e.type = ElementType.Dff
    · rw [if_pos hty] at h
      have hrest := ih cur changed p h hout2 htopo2 hself2
      intro x hx hxty
      rcases List.mem_cons.mp hx with hxe | hxr
      · subst hxe; exact absurd hty hxty
      · exact hrest x hxr hxty
    · rw [if_neg hty] at h
      cases hy : evaluateGate e.type (e.inNets.map cur) with
      | error err => rw [hy] at h; cases h
      | ok y =>
        rw [hy] at h
        simp only at h
        have hrest := ih _ _ p h hout2 htopo2 hself2
        intro x hx hxty
        rcases List.mem_cons.mp hx with hxe | hxr
        · subst hxe
          refine ⟨y, ?_, ?_⟩
          · have hin : x.inNets.map p.1 = x.inNets.map cur := by
              apply List.map_congr_left
              intro i hi
              rw [passLoop_frame i rest _ _ p h
                (fun e2 he2 hty2 => htopo1 e2 he2 hty hty2 i hi)]
              exact updateOutputs_frame y i _ _ _
                (hself x (List.mem_cons_self _ _) hty i hi)
            rw [hin]
            exact hy
          · intro o ho
            rw [passLoop_frame o rest _ _ p h (fun e2 he2 _ => hout1 e2 he2 o ho)]
            exact updateOutputs_at y o _ _ _ (Or.inl ho)
        · exact hrest x hxr hxty

/-! ## One register through one vector -/

/-- For a register `Q <- D` that alone writes `Q`, where `Q` has a driving
element and no non-register element drives it: through a vector, `current[Q]`
holds the pending value `next[Q]` from the latch on, and the capture stores
the settled `current[D]` in `next[Q]`. -/
theorem register_transfer (c : Circuit) (Q D : Nat)
    (hreg : ∃ e ∈ c.elements, e.type = ElementType.Dff ∧ registerPins e = some (Q, D))
    (hsingle : ∀ e ∈ c.elements, e.type = ElementType.Dff →
      ∀ d, registerPins e = some (Q, d) → d = D)
    (hdrv : ∃ n, c.nets[Q]? = some n ∧ n.inElement ≠ none)
    (hcomb : ∀ e ∈ c.elements, e.type ≠ ElementType.Dff → Q ∉ e.outNets)
    (v : List Logic) (s : SimState) (res : List Logic × SimState)
    (h : processVector c v s = Except.ok res) :
    latchRegisters s.nextState c.elements s.currentState Q = s.nextState Q ∧
    (∀ a, assignPrimaryInputs c.nets v
        (latchRegisters s.nextState c.elements s.currentState) = Except.ok a →
      a Q = s.nextState Q) ∧
    res.2.currentState Q = s.nextState Q ∧
    res.2.nextState Q = res.2.currentState D := by
  obtain ⟨e, he, hty, hpins⟩ := hreg
  obtain ⟨a, r, ha, hr, _, hcur, hnext⟩ := processVector_ok c v s res h
  have hlatch : latchRegisters s.nextState c.elements s.currentState Q = s.nextState Q :=
    latchRegisters_of_mem _ Q _ _ ⟨e, he, hty, D, hpins⟩
  have hassign : ∀ a, assignPrimaryInputs c.nets v
        (latchRegisters s.nextState c.elements s.currentState) = Except.ok a →
      a Q = s.nextState Q := by
    intro a ha
    rw [assignLoop_frame _ Q _ _ _ _ _ ha, hlatch]
    intro _ n hn
    obtain ⟨m, hm, hmd⟩ := hdrv
    rw [Nat.sub_zero, hm] at hn
    cases hn
    exact hmd
  refine ⟨hlatch, hassign, ?_, ?_⟩
  · rw [hcur, doWhile_frame c.elements Q hcomb _ _ _ hr]
    exact hassign a ha
  · rw [hnext, hcur]
    exact captureRegisters_of_mem _ Q D _ _ hsingle ⟨e, he, hty, hpins⟩

/-- A primary-input net that no non-register element drives still holds, at the
end of a vector, the value the vector supplied for it. -/
theorem primary_input_value (c : Circuit) (D : Nat)
    (hgate : ∀ e ∈ c.elements, e.type ≠ ElementType.Dff → D ∉ e.outNets)
    (v : List Logic) (s : SimState) (res : List Logic × SimState)
    (h : processVector c v s = Except.ok res) :
    ∀ k : Nat, (primaryInputIds c.nets)[k]? = some D →
      v[k]? = some (res.2.currentState D) := by
  obtain ⟨a, r, ha, hr, _, hcur, _⟩ := processVector_ok c v s res h
  intro k hk
  rw [hcur, doWhile_frame c.elements D hgate _ _ _ hr]
  have := assignLoop_values v c.nets 0 0 _ a ha k D hk
  simpa using this

/-! ## The unchecked assignment -/

/-- Where the guarded loop answers with an array, the loop of the code yields
the same array. -/
theorem assignLoopUnchecked_of_checked (pastEnd : Nat → Logic) (vec : List Logic) :
    ∀ (nets : List Net) (i k : Nat) (cur a : NetState),
      assignLoop vec nets i k cur = Except.ok a →
      assignLoopUnchecked pastEnd vec nets i k cur = a := by
  intro nets
  induction nets with
  | nil =>
    intro i k cur a h
    simp only [assignLoop, Except.ok.injEq] at h
    simp only [assignLoopUnchecked, h]
  | cons n rest ih =>
    intro i k cur a h
    simp only [assignLoop] at h
    simp only [assignLoopUnchecked]
    by_cases hn : n.inElement = none
    · rw [if_pos hn] at h ⊢
      cases hv : vec[k]? with
      | none => rw [hv] at h; cases h
      | some v =>
        rw [hv] at h
        simp only [readInput, hv]
        exact ih _ _ _ _ h
    · rw [if_neg hn] at h ⊢
      exact ih _ _ _ _ h

/-- Where the guarded body answers with a result, the body of the code yields
the same result. -/
theorem processVectorUnchecked_of_checked (pastEnd : Nat → Logic) (c : Circuit)
    (v : List Logic) (s : SimState) (res : List Logic × SimState)
    (h : processVector c v s = Except.ok res) :
    processVectorUnchecked pastEnd c v s = Except.ok res := by
  obtain ⟨a, r, ha, hr, _, _, _⟩ := processVector_ok c v s res h
  have hu : assignPrimaryInputsUnchecked pastEnd c.nets v
      (latchRegisters s.nextState c.elements s.currentState) = a :=
    assignLoopUnchecked_of_checked pastEnd v c.nets 0 0 _ a ha
  rw [processVector_eq c v s a r ha hr] at h
  simp only [processVectorUnchecked, hu, hr]
  exact h

/-- A guarded run without error is the run of the code. -/
theorem runLoopUnchecked_of_checked (pastEnd : Nat → Nat → Logic) (c : Circuit) :
    ∀ (vs : List (List Logic)) (t : Nat) (s : SimState),
      (runLoop c vs s).error = none →
      (runLoopUnchecked pastEnd c vs t s).outputs = (runLoop c vs s).outputs ∧
      (runLoopUnchecked pastEnd c vs t s).error = none ∧
      (runLoopUnchecked pastEnd c vs t s).final = (runLoop c vs s).final := by
  intro vs
  induction vs with
  | nil => intro t s _; exact ⟨rfl, rfl, rfl⟩
  | cons v rest ih =>
    intro t s herr
    simp only [runLoop] at herr ⊢
    cases hp : processVector c v s with
    | error err => rw [hp] at herr; simp at herr
    | ok res =>
      rw [hp] at herr
      simp only at herr
      obtain ⟨h1, h2, h3⟩ := ih (t + 1) res.2 herr
      simp only [runLoopUnchecked, processVectorUnchecked_of_checked (pastEnd t) c v s res hp,
        h1, h2, h3]
      exact ⟨trivial, trivial, trivial⟩

/-- C1: on a non-empty input list the AND gate yields `0` when some input is
`0`, otherwise `X` when some input is `X`, otherwise all inputs are `1` and it
yields `1`; the nine two-input cases are listed explicitly. -/
theorem and_gate_dominance (inputs : List Logic) (hne : inputs ≠ []) :
    (Logic.logic0 ∈ inputs → evaluateGate ElementType.And inputs = Except.ok Logic.logic0) ∧
    (Logic.logic0 ∉ inputs → Logic.logicX ∈ inputs →
      evaluateGate ElementType.And inputs = Except.ok Logic.logicX) ∧
    (Logic.logic0 ∉ inputs → Logic.logicX ∉ inputs →
      (∀ v ∈ inputs, v = Logic.logic1) ∧
      evaluateGate ElementType.And inputs = Except.ok Logic.logic1) ∧
    evaluateGate ElementType.And [Logic.logic0, Logic.logic0] = Except.ok Logic.logic0 ∧
    evaluateGate ElementType.And [Logic.logic0, Logic.logic1] = Except.ok Logic.logic0 ∧
    evaluateGate ElementType.And [Logic.logic0, Logic.logicX] = Except.ok Logic.logic0 ∧
    evaluateGate ElementType.And [Logic.logic1, Logic.logic0] = Except.ok Logic.logic0 ∧
    evaluateGate ElementType.And [Logic.logic1, Logic.logic1] = Except.ok Logic.logic1 ∧
    evaluateGate ElementType.And [Logic.logic1, Logic.logicX] = Except.ok Logic.logicX ∧
    evaluateGate ElementType.And [Logic.logicX, Logic.logic0] = Except.ok Logic.logic0 ∧
    evaluateGate ElementType.And [Logic.logicX, Logic.logic1] = Except.ok Logic.logicX ∧
    evaluateGate ElementType.And [Logic.logicX, Logic.logicX] = Except.ok Logic.logicX := by
  have _ := hne
  refine ⟨?_, ?_, ?_, ?_⟩
  · intro h0
    simp [evaluateGate, h0]
  · intro h0 hx
    simp [evaluateGate, h0, hx]
  · intro h0 hx
    refine ⟨?_, by simp [evaluateGate, h0, hx]⟩
    intro v hv
    cases v with
    | logic0 => exact absurd hv h0
    | logic1 => rfl
    | logicX => exact absurd hv hx
  · decide

/-- Witness for C1 on the three-input list `[1, X, 0]`. -/
theorem and_gate_dominance_witness :
    evaluateGate ElementType.And [Logic.logic1, Logic.logicX, Logic.logic0]
      = Except.ok Logic.logic0 :=
  (and_gate_dominance [Logic.logic1, Logic.logicX, Logic.logic0] (by decide)).1 (by decide)

/-- C2: on a non-empty input list the OR gate yields `1` when some input is
`1`, otherwise `X` when some input is `X`, otherwise all inputs are `0` and it
yields `0`; the nine two-input cases are listed explicitly. -/
theorem or_gate_dominance (inputs : List Logic) (hne : inputs ≠ []) :
    (Logic.logic1 ∈ inputs → evaluateGate ElementType.Or inputs = Except.ok Logic.logic1) ∧
    (Logic.logic1 ∉ inputs → Logic.logicX ∈ inputs →
      evaluateGate ElementType.Or inputs = Except.ok Logic.logicX) ∧
    (Logic.logic1 ∉ inputs → Logic.logicX ∉ inputs →
      (∀ v ∈ inputs, v = Logic.logic0) ∧
      evaluateGate ElementType.Or inputs = Except.ok Logic.logic0) ∧
    evaluateGate ElementType.Or [Logic.logic0, Logic.logic0] = Except.ok Logic.logic0 ∧
    evaluateGate ElementType.Or [Logic.logic0, Logic.logic1] = Except.ok Logic.logic1 ∧
    evaluateGate ElementType.Or [Logic.logic0, Logic.logicX] = Except.ok Logic.logicX ∧
    evaluateGate ElementType.Or [Logic.logic1, Logic.logic0] = Except.ok Logic.logic1 ∧
    evaluateGate ElementType.Or [Logic.logic1, Logic.logic1] = Except.ok Logic.logic1 ∧
    evaluateGate ElementType.Or [Logic.logic1, Logic.logicX] = Except.ok Logic.logic1 ∧
    evaluateGate ElementType.Or [Logic.logicX, Logic.logic0] = Except.ok Logic.logicX ∧
    evaluateGate ElementType.Or [Logic.logicX, Logic.logic1] = Except.ok Logic.logic1 ∧
    evaluateGate ElementType.Or [Logic.logicX, Logic.logicX] = Except.ok Logic.logicX := by
  have _ := hne
  refine ⟨?_, ?_, ?_, ?_⟩
  · intro h1
    simp [evaluateGate, h1]
  · intro h1 hx
    simp [evaluateGate, h1, hx]
  · intro h1 hx
    refine ⟨?_, by simp [evaluateGate, h1, hx]⟩
    intro v hv
    cases v with
    | logic0 => rfl
    | logic1 => exact absurd hv h1
    | logicX => exact absurd hv hx
  · decide

/-- Witness for C2 on the three-input list `[0, X, 0]`. -/
theorem or_gate_dominance_witness :
    evaluateGate ElementType.Or [Logic.logic0, Logic.logicX, Logic.logic0]
      = Except.ok Logic.logicX :=
  (or_gate_dominance [Logic.logic0, Logic.logicX, Logic.logic0] (by decide)).2.1
    (by decide) (by decide)

/-- C3: a NOT gate with exactly one input maps `X` to `X`, `0` to `1` and `1`
to `0`. -/
theorem not_gate_table :
    evaluateGate ElementType.Not [Logic.logicX] = Except.ok Logic.logicX ∧
    evaluateGate ElementType.Not [Logic.logic0] = Except.ok Logic.logic1 ∧
    evaluateGate ElementType.Not [Logic.logic1] = Except.ok Logic.logic0 := by
  decide

/-! ## Registers across vectors -/

/-- C4 as stated fails: in `sharedOutputCircuit` the first register is well
formed (two input nets, the single output net 3, which has a driving element
and is no output of a non-register element) and both vectors hold one value
per primary input, yet after vector 0 net 1 (its `D`) holds `1` while during vector 1 net 3 (its
`Q`) holds `0`, the value sampled by the second register. -/
theorem register_round_trip_counterexample :
    ({ type := ElementType.Dff, inNets := [0, 1], outNets := [3] } : Element)
      ∈ sharedOutputCircuit.elements ∧
    (∃ n, sharedOutputCircuit.nets[3]? = some n ∧ n.inElement ≠ none) ∧
    (∀ e ∈ sharedOutputCircuit.elements, e.type ≠ ElementType.Dff → 3 ∉ e.outNets) ∧
    primaryInputCount sharedOutputCircuit.nets = 3 ∧
    (run sharedOutputCircuit
      [[Logic.logicX, Logic.logic1, Logic.logic0],
       [Logic.logicX, Logic.logic1, Logic.logic0]]).error = none ∧
    (run sharedOutputCircuit
      ([[Logic.logicX, Logic.logic1, Logic.logic0],
        [Logic.logicX, Logic.logic1, Logic.logic0]].take 1)).final.currentState 1
      = Logic.logic1 ∧
    (run sharedOutputCircuit
      ([[Logic.logicX, Logic.logic1, Logic.logic0],
        [Logic.logicX, Logic.logic1, Logic.logic0]].take 2)).final.currentState 3
      = Logic.logic0 := by
  refine ⟨by decide, ⟨{ inElement := some 0, outElements := [] }, by decide, by decide⟩,
    by decide, by decide, by decide, by decide, by decide⟩

/-- C4 (amended): let `r` be a register with input nets `clk :: D :: _` and the
single output net `Q`, where `Q` has a driving element, is no output net of a
non-register element, and every well-formed register writing `Q` samples the
same `D`. In a run without error, for every vector `t` followed by a vector
`t + 1`, `current[Q]` equals `current[D]` as left by vector `t`, and this
holds after the latch of vector `t + 1`, after its input assignment, and after
its convergence (where the outputs are extracted). -/
theorem register_round_trip (c : Circuit) (r : Element) (clk D Q : Nat) (moreIn : List Nat)
    (vs : List (List Logic)) (t : Nat)
    (hr : r ∈ c.elements) (hty : r.type = ElementType.Dff)
    (hin : r.inNets = clk :: D :: moreIn) (hout : r.outNets = [Q])
    (hdrv : ∃ n, c.nets[Q]? = some n ∧ n.inElement ≠ none)
    (hcomb : ∀ e ∈ c.elements, e.type ≠ ElementType.Dff → Q ∉ e.outNets)
    (hsingle : ∀ e ∈ c.elements, e.type = ElementType.Dff →
      ∀ d, registerPins e = some (Q, d) → d = D)
    (ht : t + 1 < vs.length) (hok : (run c vs).error = none) :
    latchRegisters (run c (vs.take (t + 1))).final.nextState c.elements
        (run c (vs.take (t + 1))).final.currentState Q
      = (run c (vs.take (t + 1))).final.currentState D ∧
    (∀ a, assignPrimaryInputs c.nets vs[t + 1]
        (latchRegisters (run c (vs.take (t + 1))).final.nextState c.elements
          (run c (vs.take (t + 1))).final.currentState) = Except.ok a →
      a Q = (run c (vs.take (t + 1))).final.currentState D) ∧
    (run c (vs.take (t + 2))).final.currentState Q
      = (run c (vs.take (t + 1))).final.currentState D := by
  have hpins : registerPins r = some (Q, D) := by simp [registerPins, hin, hout]
  obtain ⟨out0, h0, _⟩ := runLoop_step c vs initialState t (by omega) hok
  obtain ⟨out1, h1, _⟩ := runLoop_step c vs initialState (t + 1) ht hok
  obtain ⟨a0, r0, _, _, _, hcur0, hnext0⟩ := processVector_ok c _ _ _ h0
  obtain ⟨a1, r1, ha1, hr1, _, hcur1, _⟩ := processVector_ok c _ _ _ h1
  simp only at hcur0 hnext0 hcur1
  have hnextQ : (run c (vs.take (t + 1))).final.nextState Q
      = (run c (vs.take (t + 1))).final.currentState D := by
    unfold run
    rw [hnext0, hcur0]
    exact captureRegisters_of_mem _ Q D _ _ hsingle ⟨r, hr, hty, hpins⟩
  have hlatch : latchRegisters (run c (vs.take (t + 1))).final.nextState c.elements
        (run c (vs.take (t + 1))).final.currentState Q
      = (run c (vs.take (t + 1))).final.currentState D := by
    rw [latchRegisters_of_mem _ Q _ _ ⟨r, hr, hty, D, hpins⟩]
    exact hnextQ
  have hassign : ∀ a, assignPrimaryInputs c.nets vs[t + 1]
        (latchRegisters (run c (vs.take (t + 1))).final.nextState c.elements
          (run c (vs.take (t + 1))).final.currentState) = Except.ok a →
      a Q = (run c (vs.take (t + 1))).final.currentState D := by
    intro a ha
    rw [assignLoop_frame _ Q _ _ _ _ _ ha, hlatch]
    intro _ n hn
    obtain ⟨m, hm, hmd⟩ := hdrv
    rw [Nat.sub_zero, hm] at hn
    cases hn
    exact hmd
  refine ⟨hlatch, hassign, ?_⟩
  show (runLoop c (vs.take (t + 1 + 1)) initialState).final.currentState Q = _
  rw [hcur1, doWhile_frame c.elements Q hcomb _ _ _ hr1]
  exact hassign a1 ha1

/-- Witness for C4: the single-register circuit on the vectors `[1]`, `[0]`,
`[X]`, at `t = 0`. -/
theorem register_round_trip_witness :
    (run (registerCircuit 0)
      ([[Logic.logic1], [Logic.logic0], [Logic.logicX]].take 2)).final.currentState 1
    = (run (registerCircuit 0)
      ([[Logic.logic1], [Logic.logic0], [Logic.logicX]].take 1)).final.currentState 0 :=
  (register_round_trip (registerCircuit 0)
    { type := ElementType.Dff, inNets := [0, 0], outNets := [1] } 0 0 1 []
    [[Logic.logic1], [Logic.logic0], [Logic.logicX]] 0
    (by decide) rfl rfl rfl
    ⟨{ inElement := some 0, outElements := [] }, by decide, by decide⟩
    (by decide)
    (by
      intro e he _ d hp
      simp only [registerCircuit, List.mem_singleton] at he
      subst he
      simp only [registerPins, Option.some.injEq, Prod.mk.injEq] at hp
      exact hp.2.symm)
    (by decide) (by decide)).2.2

/-- C5: in the circuit made of one register whose data input is the primary
input net 0 and whose output net 1 is the only primary output, every run on
non-empty vectors raises no error and emits one single-value sequence per
vector: `X` for the first vector and, for each later vector, the value that the
previous vector supplied on net 0. The vectors `[1]`, `[0]`, `[X]` give
`X`, `1`, `0`. -/
theorem register_delay_line (clk : Nat) (vs : List (List Logic))
    (hlen : ∀ v ∈ vs, v ≠ []) :
    (run (registerCircuit clk) vs).error = none ∧
    (run (registerCircuit clk) vs).outputs.length = vs.length ∧
    (vs ≠ [] → (run (registerCircuit clk) vs).outputs[0]? = some [Logic.logicX]) ∧
    (∀ (k : Nat) (x : Logic) (more : List Logic), k + 1 < vs.length →
      vs[k]? = some (x :: more) →
      (run (registerCircuit clk) vs).outputs[k + 1]? = some [x]) ∧
    (vs = [[Logic.logic1], [Logic.logic0], [Logic.logicX]] →
      (run (registerCircuit clk) vs).outputs
        = [[Logic.logicX], [Logic.logic1], [Logic.logic0]]) := by
  have herr : (run (registerCircuit clk) vs).error = none := by
    apply runLoop_no_error (registerCircuit clk) (fun v => v ≠ []) _ vs initialState hlen
    intro v s hv
    cases v with
    | nil => exact absurd rfl hv
    | cons x more =>
      obtain ⟨s1, h1, _⟩ := registerCircuit_step clk x more s
      exact ⟨_, h1⟩
  have hlength : (run (registerCircuit clk) vs).outputs.length = vs.length :=
    runLoop_outputs_length _ vs initialState herr
  have hfirst : vs ≠ [] →
      (run (registerCircuit clk) vs).outputs[0]? = some [Logic.logicX] := by
    intro hne
    have h0 : 0 < vs.length := List.length_pos.mpr hne
    obtain ⟨out, hp, hout⟩ := runLoop_step (registerCircuit clk) vs initialState 0 h0 herr
    have hv : vs[0] ≠ [] := hlen _ (List.getElem_mem _)
    cases hx : vs[0] with
    | nil => exact absurd hx hv
    | cons x more =>
      obtain ⟨s1, h1, _⟩ := registerCircuit_step clk x more initialState
      rw [hx] at hp
      simp only [List.take_zero, runLoop] at hp
      rw [h1] at hp
      simp only [Except.ok.injEq, Prod.mk.injEq] at hp
      unfold run
      rw [hout, ← hp.1]
      rfl
  have hlater : ∀ k x more, k + 1 < vs.length → vs[k]? = some (x :: more) →
      (run (registerCircuit clk) vs).outputs[k + 1]? = some [x] := by
    intro k x more hk hvk
    have hk0 : k < vs.length := by omega
    obtain ⟨out0, hp0, _⟩ := runLoop_step (registerCircuit clk) vs initialState k hk0 herr
    obtain ⟨out1, hp1, hout1⟩ :=
      runLoop_step (registerCircuit clk) vs initialState (k + 1) hk herr
    have hvk2 : vs[k] = x :: more := by
      rw [List.getElem?_eq_getElem hk0] at hvk
      exact Option.some.inj hvk
    rw [hvk2] at hp0
    obtain ⟨s1, h1, hs1⟩ := registerCircuit_step clk x more
      (runLoop (registerCircuit clk) (vs.take k) initialState).final
    rw [h1] at hp0
    simp only [Except.ok.injEq, Prod.mk.injEq] at hp0
    have hv : vs[k + 1] ≠ [] := hlen _ (List.getElem_mem _)
    cases hy : vs[k + 1] with
    | nil => exact absurd hy hv
    | cons y more2 =>
      obtain ⟨s2, h2, _⟩ := registerCircuit_step clk y more2
        (runLoop (registerCircuit clk) (vs.take (k + 1)) initialState).final
      rw [hy, h2] at hp1
      simp only [Except.ok.injEq, Prod.mk.injEq] at hp1
      unfold run
      rw [hout1, ← hp1.1, ← hp0.2, hs1]
  refine ⟨herr, hlength, hfirst, hlater, ?_⟩
  intro hvs
  subst hvs
  apply List.ext_getElem?
  intro i
  match i with
  | 0 => exact hfirst (by simp)
  | 1 => exact hlater 0 Logic.logic1 [] (by simp) rfl
  | 2 => exact hlater 1 Logic.logic0 [] (by simp) rfl
  | n + 3 =>
    rw [List.getElem?_eq_none (by rw [hlength]; simp), List.getElem?_eq_none (by simp)]

/-- Witness for C5: the clock pin tied to net 0 and the vectors `[1]`, `[0]`,
`[X]`. -/
theorem register_delay_line_witness :
    (run (registerCircuit 0) [[Logic.logic1], [Logic.logic0], [Logic.logicX]]).outputs
      = [[Logic.logicX], [Logic.logic1], [Logic.logic0]] :=
  (register_delay_line 0 [[Logic.logic1], [Logic.logic0], [Logic.logicX]]
    (by decide)).2.2.2.2 rfl

/-! ## The two-input AND circuit -/

/-- C6: on the circuit made of one two-input AND gate between the primary
inputs and the only primary output, every run on two-value vectors raises no
error and emits one sequence per vector; the sequence at the position of a
vector `[a, b]` is the single value the AND gate yields on `a` and `b`.
In particular `[1,1]` gives `1`, `[0,X]` gives `0` and `[1,X]` gives `X` at
any position. -/
theorem and_circuit_outputs (vs : List (List Logic)) (hvs : ∀ v ∈ vs, v.length = 2) :
    (run andCircuit vs).error = none ∧
    (run andCircuit vs).outputs.length = vs.length ∧
    (∀ (k : Nat) (a b : Logic), vs[k]? = some [a, b] →
      ∃ y, evaluateGate ElementType.And [a, b] = Except.ok y ∧
        (run andCircuit vs).outputs[k]? = some [y]) ∧
    (∀ k : Nat, vs[k]? = some [Logic.logic1, Logic.logic1] →
      (run andCircuit vs).outputs[k]? = some [Logic.logic1]) ∧
    (∀ k : Nat, vs[k]? = some [Logic.logic0, Logic.logicX] →
      (run andCircuit vs).outputs[k]? = some [Logic.logic0]) ∧
    (∀ k : Nat, vs[k]? = some [Logic.logic1, Logic.logicX] →
      (run andCircuit vs).outputs[k]? = some [Logic.logicX]) := by
  have hpair : ∀ v : List Logic, v.length = 2 → ∃ a b, v = [a, b] := by
    intro v hv
    match v, hv with
    | [a, b], _ => exact ⟨a, b, rfl⟩
  have herr : (run andCircuit vs).error = none := by
    apply runLoop_no_error andCircuit (fun v => v.length = 2) _ vs initialState hvs
    intro v s hv
    obtain ⟨a, b, rfl⟩ := hpair v hv
    obtain ⟨y, hy⟩ := evaluateGate_and_ok [a, b]
    obtain ⟨s1, h1⟩ := andCircuit_step a b y s hy
    exact ⟨_, h1⟩
  have hgen : ∀ (k : Nat) (a b : Logic), vs[k]? = some [a, b] →
      ∃ y, evaluateGate ElementType.And [a, b] = Except.ok y ∧
        (run andCircuit vs).outputs[k]? = some [y] := by
    intro k a b hk
    have hlt : k < vs.length := by
      by_contra hge
      have hnone : vs[k]? = none := List.getElem?_eq_none (by omega)
      rw [hnone] at hk
      cases hk
    obtain ⟨out, hp, hout⟩ := runLoop_step andCircuit vs initialState k hlt herr
    have hvk : vs[k] = [a, b] := by
      rw [List.getElem?_eq_getElem hlt] at hk
      exact Option.some.inj hk
    obtain ⟨y, hy⟩ := evaluateGate_and_ok [a, b]
    obtain ⟨s1, h1⟩ := andCircuit_step a b y
      (runLoop andCircuit (vs.take k) initialState).final hy
    rw [hvk, h1] at hp
    simp only [Except.ok.injEq, Prod.mk.injEq] at hp
    refine ⟨y, hy, ?_⟩
    unfold run
    rw [hout, ← hp.1]
  refine ⟨herr, runLoop_outputs_length _ vs initialState herr, hgen, ?_, ?_, ?_⟩
  · intro k hk
    obtain ⟨y, hy, hout⟩ := hgen k _ _ hk
    have : y = Logic.logic1 := by
      have h := hy.symm.trans (by decide :
        evaluateGate ElementType.And [Logic.logic1, Logic.logic1] = Except.ok Logic.logic1)
      exact Except.ok.inj h
    rw [hout, this]
  · intro k hk
    obtain ⟨y, hy, hout⟩ := hgen k _ _ hk
    have : y = Logic.logic0 := by
      have h := hy.symm.trans (by decide :
        evaluateGate ElementType.And [Logic.logic0, Logic.logicX] = Except.ok Logic.logic0)
      exact Except.ok.inj h
    rw [hout, this]
  · intro k hk
    obtain ⟨y, hy, hout⟩ := hgen k _ _ hk
    have : y = Logic.logicX := by
      have h := hy.symm.trans (by decide :
        evaluateGate ElementType.And [Logic.logic1, Logic.logicX] = Except.ok Logic.logicX)
      exact Except.ok.inj h
    rw [hout, this]

/-- Witness for C6: the vectors `[1,1]`, `[0,X]`, `[1,X]`, read at position 2. -/
theorem and_circuit_outputs_witness :
    (run andCircuit
      [[Logic.logic1, Logic.logic1], [Logic.logic0, Logic.logicX],
       [Logic.logic1, Logic.logicX]]).outputs[2]? = some [Logic.logicX] :=
  (and_circuit_outputs
    [[Logic.logic1, Logic.logic1], [Logic.logic0, Logic.logicX],
     [Logic.logic1, Logic.logicX]] (by decide)).2.2.2.2.2 2 rfl

/-! ## The run as a whole -/

/-- C7: on a circuit whose non-register elements are NOT, AND or OR gates (NOT
gates with at least one input) and on `n` vectors each holding at least as many
values as there are primary inputs, `run` raises no error and emits exactly `n`
output sequences; the `k`-th one is the sequence that processing the `k`-th
vector yields from the state left by the vectors before it. -/
theorem run_one_output_per_vector (c : Circuit) (vs : List (List Logic))
    (hkind : ∀ e ∈ c.elements, e.type ≠ ElementType.Dff →
      e.type = ElementType.Not ∨ e.type = ElementType.And ∨ e.type = ElementType.Or)
    (hnot : ∀ e ∈ c.elements, e.type = ElementType.Not → e.inNets ≠ [])
    (hlen : ∀ v ∈ vs, primaryInputCount c.nets ≤ v.length) :
    (run c vs).error = none ∧
    (run c vs).outputs.length = vs.length ∧
    ∀ (k : Nat) (hk : k < vs.length),
      ∃ out, processVector c vs[k] (run c (vs.take k)).final
          = Except.ok (out, (run c (vs.take (k + 1))).final) ∧
        (run c vs).outputs[k]? = some out := by
  have herr : (run c vs).error = none :=
    runLoop_no_error c (fun v => primaryInputCount c.nets ≤ v.length)
      (fun v s hv => processVector_succeeds c v s hkind hnot hv) vs initialState hlen
  exact ⟨herr, runLoop_outputs_length c vs initialState herr,
    fun k hk => runLoop_step c vs initialState k hk herr⟩

/-- Witness for C7: three vectors on the two-input AND circuit give three
output sequences. -/
theorem run_one_output_per_vector_witness :
    (run andCircuit
      [[Logic.logic1, Logic.logic1], [Logic.logic0, Logic.logicX],
       [Logic.logic1, Logic.logicX]]).outputs.length = 3 :=
  (run_one_output_per_vector andCircuit
    [[Logic.logic1, Logic.logic1], [Logic.logic0, Logic.logicX],
     [Logic.logic1, Logic.logicX]] (by decide) (by decide) (by decide)).2.1

/-- C9: on a circuit that holds an element whose kind is none of NOT, AND, OR,
DFF (NOT gates having at least one input) and on a non-empty sequence of
vectors that are long enough, the first pass of the first vector ends in the
unsupported-gate error, and the run ends with that error without any output
sequence. A DFF element is skipped by the pass and so never raises it. -/
theorem unsupported_gate_aborts (c : Circuit) (v : List Logic) (vs : List (List Logic))
    (hbad : ∃ e ∈ c.elements, e.type ≠ ElementType.Not ∧ e.type ≠ ElementType.And ∧
      e.type ≠ ElementType.Or ∧ e.type ≠ ElementType.Dff)
    (hnot : ∀ e ∈ c.elements, e.type = ElementType.Not → e.inNets ≠ [])
    (hlen : ∀ w ∈ v :: vs, primaryInputCount c.nets ≤ w.length) :
    (∃ a, assignPrimaryInputs c.nets v
          (latchRegisters initialState.nextState c.elements initialState.currentState)
          = Except.ok a ∧
        combinationalPass c.elements a = Except.error SimError.unsupportedGate) ∧
    (run c (v :: vs)).error = some SimError.unsupportedGate ∧
    (run c (v :: vs)).outputs = [] ∧
    (∀ (e : Element) (rest : List Element) (cur : NetState) (changed : Bool),
      e.type = ElementType.Dff → passLoop (e :: rest) cur changed = passLoop rest cur changed) := by
  obtain ⟨a, ha⟩ := assignLoop_ok v c.nets 0 0
    (latchRegisters initialState.nextState c.elements initialState.currentState)
    (by have := hlen v (List.mem_cons_self _ _); omega)
  have hpass : ∀ cur, combinationalPass c.elements cur
      = Except.error SimError.unsupportedGate :=
    fun cur => passLoop_unsupported c.elements hbad hnot cur false
  have hconv : converge c.elements a = Except.error SimError.unsupportedGate := by
    simp only [converge, maxIterations, doWhile, hpass]
  have hproc : processVector c v initialState = Except.error SimError.unsupportedGate := by
    have ha1 : assignPrimaryInputs c.nets v
        (latchRegisters initialState.nextState c.elements initialState.currentState)
        = Except.ok a := ha
    simp only [processVector, ha1, hconv]
  refine ⟨⟨a, ha, hpass a⟩, ?_, ?_, ?_⟩
  · simp only [run, runLoop, hproc]
  · simp only [run, runLoop, hproc]
  · intro e rest cur changed hty
    simp only [passLoop, hty, if_true]

/-- Witness for C9: a register followed by an element of kind `Other 0`, on two
one-value vectors. -/
theorem unsupported_gate_aborts_witness :
    (run unsupportedCircuit [[Logic.logic1], [Logic.logic0]]).error
      = some SimError.unsupportedGate ∧
    (run unsupportedCircuit [[Logic.logic1], [Logic.logic0]]).outputs = [] :=
  ⟨(unsupported_gate_aborts unsupportedCircuit [Logic.logic1] [[Logic.logic0]]
    ⟨{ type := ElementType.Other 0, inNets := [1], outNets := [2] },
      by decide, by decide, by decide, by decide, by decide⟩
    (by decide) (by decide)).2.1,
   (unsupported_gate_aborts unsupportedCircuit [Logic.logic1] [[Logic.logic0]]
    ⟨{ type := ElementType.Other 0, inNets := [1], outNets := [2] },
      by decide, by decide, by decide, by decide, by decide⟩
    (by decide) (by decide)).2.2.1⟩

/-! ## The fixed point of the convergence loop -/

/-- C10: on supported gates (NOT gates with at least one input) the convergence
loop ends from every state, and if it ended because its last pass recorded no
change, then every output net of every non-register element holds the value
its gate yields on the current values of its input nets, and one more full
pass succeeds, records no change, and leaves `current` the same at every
net. -/
theorem converged_is_fixed_point (els : List Element) (cur : NetState)
    (hkind : ∀ e ∈ els, e.type ≠ ElementType.Dff →
      e.type = ElementType.Not ∨ e.type = ElementType.And ∨ e.type = ElementType.Or)
    (hnot : ∀ e ∈ els, e.type = ElementType.Not → e.inNets ≠ []) :
    ∃ r, converge els cur = Except.ok r ∧
      (r.changed = false →
        (∀ e ∈ els, e.type ≠ ElementType.Dff →
          ∃ y, evaluateGate e.type (e.inNets.map r.currentState) = Except.ok y ∧
            ∀ o ∈ e.outNets, r.currentState o = y) ∧
        ∃ p, combinationalPass els r.currentState = Except.ok p ∧ p.2 = false ∧
          ∀ id, p.1 id = r.currentState id) := by
  obtain ⟨r, hr⟩ := doWhile_ok els (fun c => passLoop_ok els hkind hnot c false)
    (maxIterations - 1) cur
  refine ⟨r, hr, ?_⟩
  intro hch
  have hlast := doWhile_last_pass els _ cur r hr hch
  obtain ⟨_, _, h3⟩ := passLoop_no_change els r.currentState false _ hlast rfl
  exact ⟨h3, (r.currentState, false), hlast, rfl, fun _ => rfl⟩

/-- Witness for C10: the two-input AND gate, started from the all-`X` array. -/
theorem converged_is_fixed_point_witness :
    ∃ r, converge andCircuit.elements initialState.currentState = Except.ok r ∧
      (r.changed = false →
        (∀ e ∈ andCircuit.elements, e.type ≠ ElementType.Dff →
          ∃ y, evaluateGate e.type (e.inNets.map r.currentState) = Except.ok y ∧
            ∀ o ∈ e.outNets, r.currentState o = y) ∧
        ∃ p, combinationalPass andCircuit.elements r.currentState = Except.ok p ∧
          p.2 = false ∧ ∀ id, p.1 id = r.currentState id) :=
  converged_is_fixed_point andCircuit.elements initialState.currentState
    (by decide) (by decide)

/-! ## Order of the elements and history of the run -/

/-- C11 as stated fails: the chain of 101 inverters has no feedback and its
reversal is an ordering of the same elements, yet from the array holding `1`
on net 0 and `X` elsewhere the convergence stage leaves `0` on net 101 in
ascending order (two passes) and `X` in descending order, where the cap stops
the loop after 100 passes that each settled one net. -/
theorem order_independence_counterexample :
    (inverterChain 101).reverse.Perm (inverterChain 101) ∧
    Acyclic (inverterChain 101) ∧
    ∃ r1 r2, converge (inverterChain 101) (chainState 0) = Except.ok r1 ∧
      converge (inverterChain 101).reverse (chainState 0) = Except.ok r2 ∧
      r1.currentState 101 = Logic.logic0 ∧ r2.currentState 101 = Logic.logicX ∧
      r2.changed = true ∧ r2.maxIterations = 0 := by
  refine ⟨List.reverse_perm _, acyclic_inverterChain 101, _, _,
    doWhile_chain 101 98 (by decide), doWhile_reverse_chain 101 99 0 (by decide), ?_, ?_, ?_, ?_⟩
  · decide
  · decide
  · decide
  · decide

/-- C11 (amended): for elements without combinational feedback, a starting
array and two orderings of the same element list, if in both orderings the
convergence stage stops on a pass that recorded no change (rather than on the
cap of 100 passes), the arrays it leaves are identical at every net. -/
theorem order_independent_when_settled (els1 els2 : List Element) (cur : NetState)
    (r1 r2 : Converged) (hperm : els1.Perm els2) (hacyc : Acyclic els1)
    (h1 : converge els1 cur = Except.ok r1) (h2 : converge els2 cur = Except.ok r2)
    (hs1 : r1.changed = false) (hs2 : r2.changed = false) :
    ∀ id, r1.currentState id = r2.currentState id := by
  have hmem : ∀ e, e ∈ els1 ↔ e ∈ els2 := fun e => hperm.mem_iff
  apply fixed_point_unique els1 els2 hmem hacyc _ _
    (isFixedPoint_of_doWhile els1 _ cur r1 h1 hs1)
    (isFixedPoint_of_doWhile els2 _ cur r2 h2 hs2)
  intro j hj
  rw [doWhile_frame els1 j hj _ _ _ h1,
    doWhile_frame els2 j (fun e he => hj e ((hmem e).mpr he)) _ _ _ h2]

/-- Witness for C11: the chain of two inverters in ascending and in descending
order. -/
theorem order_independent_when_settled_witness :
    converge (inverterChain 2) (chainState 0)
      = Except.ok { currentState := chainState 2, changed := false, maxIterations := 98 } ∧
    converge (inverterChain 2).reverse (chainState 0)
      = Except.ok { currentState := chainState 2, changed := false, maxIterations := 97 } ∧
    ∀ id, (chainState 2) id = (chainState 2) id :=
  ⟨doWhile_chain 2 98 (by decide), doWhile_reverse_chain 2 99 0 (by decide),
   order_independent_when_settled (inverterChain 2) (inverterChain 2).reverse (chainState 0)
    { currentState := chainState 2, changed := false, maxIterations := 98 }
    { currentState := chainState 2, changed := false, maxIterations := 97 }
    (List.reverse_perm _).symm (acyclic_inverterChain 2)
    (doWhile_chain 2 98 (by decide)) (doWhile_reverse_chain 2 99 0 (by decide)) rfl rfl⟩

/-- C13: on supported gates (NOT gates with at least one input) and from every
array the convergence stage ends without error after `n` full passes with
`1 ≤ n ≤ 100`, the counter ending at `100 - n`; every pass before the last
recorded a change, and when `n < 100` the last pass recorded none, so that only
pass 100 can end the stage while still recording a change. -/
theorem convergence_pass_count (els : List Element) (cur : NetState)
    (hkind : ∀ e ∈ els, e.type ≠ ElementType.Dff →
      e.type = ElementType.Not ∨ e.type = ElementType.And ∨ e.type = ElementType.Or)
    (hnot : ∀ e ∈ els, e.type = ElementType.Not → e.inNets ≠ []) :
    ∃ r n, converge els cur = Except.ok r ∧ 1 ≤ n ∧ n ≤ 100 ∧
      r.maxIterations = 100 - n ∧
      passesFrom els n cur = Except.ok (r.currentState, r.changed) ∧
      (∀ m, 1 ≤ m → m < n → ∃ p, passesFrom els m cur = Except.ok p ∧ p.2 = true) ∧
      (n < 100 → r.changed = false) := by
  obtain ⟨r, hr⟩ := doWhile_ok els (fun c => passLoop_ok els hkind hnot c false)
    (maxIterations - 1) cur
  obtain ⟨n, h1, h2, h3, h4, h5, h6⟩ := doWhile_passes els _ cur r hr
  exact ⟨r, n, hr, h1, h2, h3, h4, h5, h6⟩

/-- Witness for C13: the two-input AND gate, started from the all-`X` array. -/
theorem convergence_pass_count_witness :
    ∃ r n, converge andCircuit.elements initialState.currentState = Except.ok r ∧
      1 ≤ n ∧ n ≤ 100 ∧ r.maxIterations = 100 - n ∧
      passesFrom andCircuit.elements n initialState.currentState
        = Except.ok (r.currentState, r.changed) ∧
      (∀ m, 1 ≤ m → m < n →
        ∃ p, passesFrom andCircuit.elements m initialState.currentState = Except.ok p ∧
          p.2 = true) ∧
      (n < 100 → r.changed = false) :=
  convergence_pass_count andCircuit.elements initialState.currentState
    (by decide) (by decide)

/-! ## Malformed registers -/

/-- C14: a DFF element with fewer than two input nets or without output net
causes no write in the latch or in the capture: each step yields the same
array as on the element list without the malformed DFF elements, and when
every DFF is malformed the latch leaves `current` and the capture leaves
`next` as they were (neither step touches the other array). -/
theorem malformed_registers_skipped (els : List Element) (cur next : NetState) :
    latchRegisters next els cur
      = latchRegisters next (els.filter (fun e => !isMalformedRegister e)) cur ∧
    captureRegisters cur els next
      = captureRegisters cur (els.filter (fun e => !isMalformedRegister e)) next ∧
    ((∀ e ∈ els, e.type = ElementType.Dff → (e.inNets.length < 2 ∨ e.outNets = [])) →
      latchRegisters next els cur = cur ∧ captureRegisters cur els next = next) :=
  ⟨latchRegisters_filter next els cur, captureRegisters_filter cur els next,
    registers_all_malformed cur next els⟩

/-! ## Assignment, extraction and printing -/

/-- C15: with `p` primary-input nets (listed by `primaryInputIds` in ascending
id order, exactly the nets without driving element) and a vector of at least
`p` values, the assignment succeeds; afterwards the `k`-th primary-input net
holds the `k`-th vector value for every `k < p`, and `current` is unchanged at
every net that has a driving element. -/
theorem assign_primary_inputs (nets : List Net) (vec : List Logic) (cur : NetState)
    (hlen : primaryInputCount nets ≤ vec.length) :
    (primaryInputIds nets).length = primaryInputCount nets ∧
    (primaryInputIds nets).Pairwise (fun a b => a < b) ∧
    (∀ id, id ∈ primaryInputIds nets ↔ ∃ n, nets[id]? = some n ∧ n.inElement = none) ∧
    ∃ a, assignPrimaryInputs nets vec cur = Except.ok a ∧
      (∀ k, k < primaryInputCount nets →
        ∃ id, (primaryInputIds nets)[k]? = some id ∧ vec[k]? = some (a id)) ∧
      (∀ j n, nets[j]? = some n → n.inElement ≠ none → a j = cur j) := by
  have hlength := primaryInputIdsFrom_length nets 0
  refine ⟨hlength, primaryInputIdsFrom_sorted nets 0, ?_, ?_⟩
  · intro id
    rw [primaryInputIds, primaryInputIdsFrom_mem]
    simp
  · obtain ⟨a, ha⟩ := assignLoop_ok vec nets 0 0 cur (by omega)
    refine ⟨a, ha, ?_, ?_⟩
    · intro k hk
      have hk1 : k < (primaryInputIds nets).length := by
        rw [primaryInputIds, hlength]; exact hk
      refine ⟨(primaryInputIds nets)[k], List.getElem?_eq_getElem hk1, ?_⟩
      have := assignLoop_values vec nets 0 0 cur a ha k _ (List.getElem?_eq_getElem hk1)
      simpa using this
    · intro j n hn hdrv
      apply assignLoop_frame vec j nets 0 0 cur a ha
      intro _ m hm
      rw [Nat.sub_zero, hn] at hm
      cases hm
      exact hdrv

/-- Witness for C15: the vector `[1, 0]` on the nets of the two-input AND
circuit. -/
theorem assign_primary_inputs_witness :
    ∃ a, assignPrimaryInputs andCircuit.nets [Logic.logic1, Logic.logic0]
        initialState.currentState = Except.ok a ∧
      (∀ k, k < primaryInputCount andCircuit.nets →
        ∃ id, (primaryInputIds andCircuit.nets)[k]? = some id ∧
          [Logic.logic1, Logic.logic0][k]? = some (a id)) ∧
      (∀ j n, andCircuit.nets[j]? = some n → n.inElement ≠ none →
        a j = initialState.currentState j) :=
  (assign_primary_inputs andCircuit.nets [Logic.logic1, Logic.logic0]
    initialState.currentState (by decide)).2.2.2

/-- C16: the extracted output sequence is the list of `current[id]` over the
nets, in ascending id order, whose list of consuming elements is empty or
starts with an absent entry; all other nets contribute nothing. -/
theorem primary_outputs_extracted (nets : List Net) (cur : NetState) :
    primaryOutputs nets cur
      = ((nets.enumFrom 0).filter
          (fun p => decide (p.2.outElements = [] ∨ p.2.outElements.head? = some none))).map
          (fun p => cur p.1) :=
  outputsLoop_eq cur nets 0

/-- C17: the text written for an output sequence is its value symbols in order,
joined by single `;` separators (none before the first or after the last
symbol), followed by one newline; for the empty sequence it is the newline
alone. -/
theorem printed_line (symbol : Logic → String) (outputs : List Logic) :
    printLine symbol outputs = String.intercalate ";" (outputs.map symbol) ++ "\n" ∧
    printLine symbol [] = "\n" := by
  refine ⟨?_, by simp [printLine, printLoop]⟩
  cases outputs with
  | nil => simp [printLine, printLoop, String.intercalate]
  | cons v rest =>
    simp only [printLine, List.map, String.intercalate]
    rw [printLoop_eq symbol _ rest v 0 "" (by simp)]
    simp

/-! ## Conservative extension of two-valued logic -/

/-- C19: on inputs without `X` each gate yields the classical value and never
`X`: NOT the negation of its (first) input, AND the conjunction and OR the
disjunction of a non-empty input list. And whenever NOT, AND or OR yields `0`
or `1` on a non-empty input list, it yields the same value on every list
obtained by replacing `X` inputs by `0` or `1`. -/
theorem gates_extend_boolean_logic :
    (∀ (b : Bool) (more : List Bool),
      evaluateGate ElementType.Not ((b :: more).map Logic.ofBool)
        = Except.ok (Logic.ofBool (!b))) ∧
    (∀ bs : List Bool, bs ≠ [] →
      evaluateGate ElementType.And (bs.map Logic.ofBool)
        = Except.ok (Logic.ofBool (bs.all id))) ∧
    (∀ bs : List Bool, bs ≠ [] →
      evaluateGate ElementType.Or (bs.map Logic.ofBool)
        = Except.ok (Logic.ofBool (bs.any id))) ∧
    (∀ (type : ElementType) (inputs refined : List Logic) (y : Logic),
      (type = ElementType.Not ∨ type = ElementType.And ∨ type = ElementType.Or) →
      inputs ≠ [] → Refines inputs refined →
      evaluateGate type inputs = Except.ok y → y ≠ Logic.logicX →
      evaluateGate type refined = Except.ok y) := by
  refine ⟨?_, ?_, ?_, ?_⟩
  · intro b more
    cases b <;> simp [evaluateGate, Logic.ofBool]
  · intro bs _
    have hX := logicX_not_mem_map_ofBool bs
    by_cases h0 : Logic.logic0 ∈ bs.map Logic.ofBool
    · have hall := (logic0_mem_map_ofBool bs).mp h0
      simp only [evaluateGate, if_pos h0, hall]
      rfl
    · have hall : bs.all id = true := by
        cases h : bs.all id
        · exact absurd ((logic0_mem_map_ofBool bs).mpr h) h0
        · rfl
      simp only [evaluateGate, if_neg h0, if_neg hX, hall]
      rfl
  · intro bs _
    have hX := logicX_not_mem_map_ofBool bs
    by_cases h1 : Logic.logic1 ∈ bs.map Logic.ofBool
    · have hany := (logic1_mem_map_ofBool bs).mp h1
      simp only [evaluateGate, if_pos h1, hany]
      rfl
    · have hany : bs.any id = false := by
        cases h : bs.any id
        · rfl
        · exact absurd ((logic1_mem_map_ofBool bs).mpr h) h1
      simp only [evaluateGate, if_neg h1, if_neg hX, hany]
      rfl
  · intro type inputs refined y _ _ href hy hyX
    exact evaluateGate_refines type inputs refined y href hy hyX

/-! ## Declaration order as topological order -/

/-- C18: on supported gates (NOT gates with at least one input), when each net
is an output net of at most one element and no non-register element reads a
net driven by itself or by a non-register element later in the list, then from
every array the first pass succeeds and leaves a fixed point, a second pass
records no change and leaves that array, and the convergence stage ends on it
without error after at most two passes. -/
theorem topological_order_one_pass (els : List Element) (cur : NetState)
    (hkind : ∀ e ∈ els, e.type ≠ ElementType.Dff →
      e.type = ElementType.Not ∨ e.type = ElementType.And ∨ e.type = ElementType.Or)
    (hnot : ∀ e ∈ els, e.type = ElementType.Not → e.inNets ≠ [])
    (hout : els.Pairwise (fun e1 e2 => ∀ o ∈ e1.outNets, o ∉ e2.outNets))
    (htopo : els.Pairwise (fun e1 e2 => e1.type ≠ ElementType.Dff →
      e2.type ≠ ElementType.Dff → ∀ i ∈ e1.inNets, i ∉ e2.outNets))
    (hself : ∀ e ∈ els, e.type ≠ ElementType.Dff → ∀ i ∈ e.inNets, i ∉ e.outNets) :
    ∃ p r, combinationalPass els cur = Except.ok p ∧
      IsFixedPoint els p.1 ∧
      combinationalPass els p.1 = Except.ok (p.1, false) ∧
      converge els cur = Except.ok r ∧
      r.currentState = p.1 ∧ r.changed = false ∧
      maxIterations - r.maxIterations ≤ 2 ∧
      (r.maxIterations = maxIterations - 1 ∨ r.maxIterations = maxIterations - 2) := by
  obtain ⟨p, hp⟩ := passLoop_ok els hkind hnot cur false
  have hfix : IsFixedPoint els p.1 :=
    passLoop_topological els cur false p hp hout htopo hself
  have hp2 : combinationalPass els p.1 = Except.ok (p.1, false) :=
    passLoop_fixed els p.1 false hfix
  by_cases hch : p.2 = true
  · have hp1 : combinationalPass els cur = Except.ok (p.1, true) := by
      rw [← hch]; exact hp
    refine ⟨p, { currentState := p.1, changed := false, maxIterations := 98 },
      hp, hfix, hp2, ?_, rfl, rfl, (by show 100 - 98 ≤ 2; decide), Or.inr rfl⟩
    show doWhile els (98 + 1) cur = _
    rw [doWhile_of_change els 98 cur p.1 hp1]
    exact doWhile_of_no_change els 98 p.1 p.1 hp2
  · have hp1 : combinationalPass els cur = Except.ok (p.1, false) := by
      have : p.2 = false := by simpa using hch
      rw [← this]; exact hp
    refine ⟨p, { currentState := p.1, changed := false, maxIterations := 99 },
      hp, hfix, hp2, ?_, rfl, rfl, (by show 100 - 99 ≤ 2; decide), Or.inl rfl⟩
    exact doWhile_of_no_change els 99 cur p.1 hp1

/-- Witness for C18: three inverters in ascending order, started from the array
holding `1` on net 0 and `X` elsewhere. -/
theorem topological_order_one_pass_witness :
    ∃ p r, combinationalPass (inverterChain 3) (chainState 0) = Except.ok p ∧
      IsFixedPoint (inverterChain 3) p.1 ∧
      combinationalPass (inverterChain 3) p.1 = Except.ok (p.1, false) ∧
      converge (inverterChain 3) (chainState 0) = Except.ok r ∧
      r.currentState = p.1 ∧ r.changed = false ∧
      maxIterations - r.maxIterations ≤ 2 ∧
      (r.maxIterations = maxIterations - 1 ∨ r.maxIterations = maxIterations - 2) :=
  topological_order_one_pass (inverterChain 3) (chainState 0)
    (by decide) (by decide) (by decide) (by decide) (by decide)

/-! ## Two registers in a row -/

/-- C20: let `R1` and `R2` be registers of a circuit, `R1` with data input `D1`
and output net `Q1`, `R2` with data input `Q1` and output net `Q2`, where `D1`
is a primary input (no driver, and no non-register element writes it), `Q1`
and `Q2` have a driving element and no element other than `R1`, respectively
`R2`, lists them as output. In a run without error, wherever `R1` and `R2`
stand in the element list: `current[Q2]` is `X` through each of the first two
vectors, and for every vector `t` followed by two more, `current[Q2]` holds,
from the latch of vector `t + 2` to its end, the value of `current[D1]` left
by vector `t`, which is the value that vector `t` supplied for `D1`. -/
theorem two_register_delay (c : Circuit) (R1 R2 : Element)
    (clk1 clk2 D1 Q1 Q2 : Nat) (more1 more2 : List Nat) (vs : List (List Logic))
    (hR1 : R1 ∈ c.elements) (hR2 : R2 ∈ c.elements)
    (hty1 : R1.type = ElementType.Dff) (hty2 : R2.type = ElementType.Dff)
    (hin1 : R1.inNets = clk1 :: D1 :: more1) (hout1 : R1.outNets = [Q1])
    (hin2 : R2.inNets = clk2 :: Q1 :: more2) (hout2 : R2.outNets = [Q2])
    (hD1 : ∃ n, c.nets[D1]? = some n ∧ n.inElement = none)
    (hD1gate : ∀ e ∈ c.elements, e.type ≠ ElementType.Dff → D1 ∉ e.outNets)
    (hQ1 : ∃ n, c.nets[Q1]? = some n ∧ n.inElement ≠ none)
    (hQ2 : ∃ n, c.nets[Q2]? = some n ∧ n.inElement ≠ none)
    (hother1 : ∀ e ∈ c.elements, e ≠ R1 → Q1 ∉ e.outNets)
    (hother2 : ∀ e ∈ c.elements, e ≠ R2 → Q2 ∉ e.outNets)
    (hok : (run c vs).error = none) :
    (0 < vs.length →
      latchRegisters initialState.nextState c.elements initialState.currentState Q2
        = Logic.logicX ∧
      (run c (vs.take 1)).final.currentState Q2 = Logic.logicX) ∧
    (1 < vs.length →
      latchRegisters (run c (vs.take 1)).final.nextState c.elements
        (run c (vs.take 1)).final.currentState Q2 = Logic.logicX ∧
      (run c (vs.take 2)).final.currentState Q2 = Logic.logicX) ∧
    (∀ t, t + 2 < vs.length →
      latchRegisters (run c (vs.take (t + 2))).final.nextState c.elements
        (run c (vs.take (t + 2))).final.currentState Q2
        = (run c (vs.take (t + 1))).final.currentState D1 ∧
      (run c (vs.take (t + 3))).final.currentState Q2
        = (run c (vs.take (t + 1))).final.currentState D1 ∧
      ∀ (v : List Logic) (k : Nat), vs[t]? = some v →
        (primaryInputIds c.nets)[k]? = some D1 →
        v[k]? = some ((run c (vs.take (t + 3))).final.currentState Q2)) := by
  have hpins1 : registerPins R1 = some (Q1, D1) := by simp [registerPins, hin1, hout1]
  have hpins2 : registerPins R2 = some (Q2, Q1) := by simp [registerPins, hin2, hout2]
  have hpins_out : ∀ (e : Element) (q d : Nat), registerPins e = some (q, d) →
      q ∈ e.outNets := by
    intro e q d hp
    unfold registerPins at hp
    rcases hout : e.outNets with _ | ⟨q0, outs⟩
    · rw [hout] at hp; simp at hp
    · rw [hout] at hp
      rcases hin : e.inNets with _ | ⟨a, _ | ⟨d0, ins⟩⟩
      · rw [hin] at hp; simp at hp
      · rw [hin] at hp; simp at hp
      · rw [hin] at hp
        simp only [Option.some.injEq, Prod.mk.injEq] at hp
        rw [← hp.1]
        exact List.mem_cons_self _ _
  have hsingle1 : ∀ e ∈ c.elements, e.type = ElementType.Dff →
      ∀ d, registerPins e = some (Q1, d) → d = D1 := by
    intro e he _ d hp
    by_cases heq : e = R1
    · subst heq
      rw [hpins1] at hp
      simp only [Option.some.injEq, Prod.mk.injEq] at hp
      exact hp.2.symm
    · exact absurd (hpins_out e Q1 d hp) (hother1 e he heq)
  have hsingle2 : ∀ e ∈ c.elements, e.type = ElementType.Dff →
      ∀ d, registerPins e = some (Q2, d) → d = Q1 := by
    intro e he _ d hp
    by_cases heq : e = R2
    · subst heq
      rw [hpins2] at hp
      simp only [Option.some.injEq, Prod.mk.injEq] at hp
      exact hp.2.symm
    · exact absurd (hpins_out e Q2 d hp) (hother2 e he heq)
  have hcomb1 : ∀ e ∈ c.elements, e.type ≠ ElementType.Dff → Q1 ∉ e.outNets :=
    fun e he hty => hother1 e he (fun heq => hty (heq ▸ hty1))
  have hcomb2 : ∀ e ∈ c.elements, e.type ≠ ElementType.Dff → Q2 ∉ e.outNets :=
    fun e he hty => hother2 e he (fun heq => hty (heq ▸ hty2))
  have _ := hD1
  -- the two registers, followed through vector `k`
  have step1 : ∀ k (hk : k < vs.length),
      (run c (vs.take (k + 1))).final.currentState Q1
        = (run c (vs.take k)).final.nextState Q1 ∧
      (run c (vs.take (k + 1))).final.nextState Q1
        = (run c (vs.take (k + 1))).final.currentState D1 := by
    intro k hk
    obtain ⟨out, hp, _⟩ := runLoop_step c vs initialState k hk hok
    have := register_transfer c Q1 D1 ⟨R1, hR1, hty1, hpins1⟩ hsingle1 hQ1 hcomb1 _ _ _ hp
    exact ⟨this.2.2.1, this.2.2.2⟩
  have step2 : ∀ k (hk : k < vs.length),
      latchRegisters (run c (vs.take k)).final.nextState c.elements
        (run c (vs.take k)).final.currentState Q2
        = (run c (vs.take k)).final.nextState Q2 ∧
      (run c (vs.take (k + 1))).final.currentState Q2
        = (run c (vs.take k)).final.nextState Q2 ∧
      (run c (vs.take (k + 1))).final.nextState Q2
        = (run c (vs.take (k + 1))).final.currentState Q1 := by
    intro k hk
    obtain ⟨out, hp, _⟩ := runLoop_step c vs initialState k hk hok
    have := register_transfer c Q2 Q1 ⟨R2, hR2, hty2, hpins2⟩ hsingle2 hQ2 hcomb2 _ _ _ hp
    exact ⟨this.1, this.2.2.1, this.2.2.2⟩
  have hstart : (run c (vs.take 0)).final = initialState := by
    simp [run, runLoop]
  refine ⟨?_, ?_, ?_⟩
  · intro h0
    have h2 := step2 0 h0
    rw [hstart] at h2
    exact ⟨h2.1, h2.2.1⟩
  · intro h1
    have a1 := step1 0 (by omega)
    have a2 := step2 0 (by omega)
    have b2 := step2 1 h1
    rw [hstart] at a1 a2
    have hnext : (run c (vs.take 1)).final.nextState Q2 = Logic.logicX := by
      rw [a2.2.2, a1.1]
      rfl
    exact ⟨b2.1.trans hnext, b2.2.1.trans hnext⟩
  · intro t ht
    have a1 := step1 t (by omega)
    have a1n := step1 (t + 1) (by omega)
    have a2 := step2 (t + 1) (by omega)
    have b2 := step2 (t + 2) ht
    have hnext : (run c (vs.take (t + 2))).final.nextState Q2
        = (run c (vs.take (t + 1))).final.currentState D1 := by
      rw [a2.2.2, a1n.1, a1.2]
    refine ⟨b2.1.trans hnext, b2.2.1.trans hnext, ?_⟩
    intro v k hv hk
    have htl : t < vs.length := by omega
    obtain ⟨out, hp, _⟩ := runLoop_step c vs initialState t htl hok
    have hval := primary_input_value c D1 hD1gate _ _ _ hp k hk
    have hvt : vs[t] = v := by
      rw [List.getElem?_eq_getElem htl] at hv
      exact Option.some.inj hv
    rw [hvt] at hval
    rw [hval]
    congr 1
    exact (b2.2.1.trans hnext).symm

/-- Witness for C20: the two registers in both orders on the vectors `[1]`,
`[0]`, `[X]`; the third vector shows the value supplied by the first. -/
theorem two_register_delay_witness :
    (run (pipelineCircuit false)
      ([[Logic.logic1], [Logic.logic0], [Logic.logicX]].take 3)).final.currentState 2
      = (run (pipelineCircuit false)
          ([[Logic.logic1], [Logic.logic0], [Logic.logicX]].take 1)).final.currentState 0 ∧
    (run (pipelineCircuit true)
      ([[Logic.logic1], [Logic.logic0], [Logic.logicX]].take 3)).final.currentState 2
      = (run (pipelineCircuit true)
          ([[Logic.logic1], [Logic.logic0], [Logic.logicX]].take 1)).final.currentState 0 :=
  ⟨((two_register_delay (pipelineCircuit false)
      { type := ElementType.Dff, inNets := [0, 0], outNets := [1] }
      { type := ElementType.Dff, inNets := [0, 1], outNets := [2] }
      0 0 0 1 2 [] [] [[Logic.logic1], [Logic.logic0], [Logic.logicX]]
      (by decide) (by decide) rfl rfl rfl rfl rfl rfl
      ⟨{ inElement := none, outElements := [some 0, some 1] }, by decide, by decide⟩
      (by decide)
      ⟨{ inElement := some 0, outElements := [some 1] }, by decide, by decide⟩
      ⟨{ inElement := some 1, outElements := [] }, by decide, by decide⟩
      (by decide) (by decide) (by decide)).2.2 0 (by decide)).2.1,
   ((two_register_delay (pipelineCircuit true)
      { type := ElementType.Dff, inNets := [0, 0], outNets := [1] }
      { type := ElementType.Dff, inNets := [0, 1], outNets := [2] }
      0 0 0 1 2 [] [] [[Logic.logic1], [Logic.logic0], [Logic.logicX]]
      (by decide) (by decide) rfl rfl rfl rfl rfl rfl
      ⟨{ inElement := none, outElements := [some 0, some 1] }, by decide, by decide⟩
      (by decide)
      ⟨{ inElement := some 0, outElements := [some 1] }, by decide, by decide⟩
      ⟨{ inElement := some 1, outElements := [] }, by decide, by decide⟩
      (by decide) (by decide) (by decide)).2.2 0 (by decide)).2.1⟩

end AnalysisEDA
